import Mathlib

/-!
Verification development for the fork-choice-network repository.

The Rust sources are shallowly embedded: `u64` values are natural numbers
with explicit `% U64` where wrap-around of release-mode arithmetic matters,
`HashMap`s are association lists with unique keys, `BTreeMap`s are
key-sorted association lists, and loops that follow hash links carry an
explicit fuel argument.  Rust `panic!`/`expect`/`todo!` outcomes are
modelled by dedicated result constructors.
-/

namespace FCN

/-- Modulus of unsigned 64-bit machine integers; `x % U64` models wrapping
of Rust release-mode `u64` arithmetic. -/
def U64 : Nat := 18446744073709551616

/-- Saturating successor on `u64`, as in `u64::saturating_add(1)`. -/
def satAdd1 (n : Nat) : Nat := min (n + 1) (U64 - 1)

section AssocList

variable {α β : Type} [DecidableEq α]

/-- Lookup in an association list; models `HashMap::get`. -/
def assocGet : List (α × β) → α → Option β
  | [], _ => none
  | (k, v) :: rest, key => if k = key then some v else assocGet rest key

/-- Insert-or-replace; models `HashMap::insert` on maps with unique keys. -/
def assocPut : List (α × β) → α → β → List (α × β)
  | [], key, v => [(key, v)]
  | (k, w) :: rest, key, v =>
    if k = key then (key, v) :: rest else (k, w) :: assocPut rest key v

/-- Remove a key; models `HashMap::remove`. -/
def assocRemove : List (α × β) → α → List (α × β)
  | [], _ => []
  | (k, v) :: rest, key => if k = key then rest else (k, v) :: assocRemove rest key

end AssocList

namespace ForkChoice

/-- Digests (32-byte hashes) are modelled as natural numbers; `0` stands for
the all-zero digest used as the sentinel pre-genesis parent. -/
abbrev Digest := Nat

/-- Embedding of `ForkChoiceTreeNode` from `common/src/fork_choice_tree.rs`. -/
structure ForkChoiceTreeNode where
  block_frame : Nat
  block_height : Nat
  block_parent : Digest
  block_hash : Digest
  score : Nat
  children : List Digest
deriving DecidableEq

/-- Embedding of `ForkChoiceTree`: node map plus finalization frontier. -/
structure ForkChoiceTree where
  nodes : List (Digest × ForkChoiceTreeNode)
  finalized_frame : Nat
  finalized_head : Digest
deriving DecidableEq

/-- Embedding of `ForkChoiceTreeError`. -/
inductive ForkChoiceTreeError
  | invalidBlockParentHash (d : Digest)
  | invalidBlockHeight (h : Nat)
  | unsolvableFork (d : Digest)
deriving DecidableEq

/-- `ForkChoiceTree::new`: a root node with frame 0, height 0, zero parent,
score 0; `finalized_frame = 1`, `finalized_head = genesis`. -/
def ForkChoiceTree.new (genesis_block_hash : Digest) : ForkChoiceTree :=
  { nodes := [(genesis_block_hash,
      { block_frame := 0, block_height := 0, block_parent := 0,
        block_hash := genesis_block_hash, score := 0, children := [] })],
    finalized_frame := 1,
    finalized_head := genesis_block_hash }

/-- Outcome of the score-increment walk.  `panic` models the
`expect("node not found")` failure in `ForkChoiceTree::node_mut`; `noFuel`
is exhaustion of the explicit recursion bound. -/
inductive IncResult
  | ok (t : ForkChoiceTree)
  | panic
  | noFuel
deriving DecidableEq

/-- `ForkChoiceTree::increment_node_score`: walk upward via `block_parent`,
stopping only at a node whose frame equals `finalized_frame`, adding one to
every score on the way.  Looking up a hash that is not in the node map is
the `expect("node not found")` panic. -/
def incrementLoop : Nat → ForkChoiceTree → Digest → IncResult
  | 0, _, _ => .noFuel
  | fuel + 1, t, h =>
    match assocGet t.nodes h with
    | none => .panic
    | some node =>
      if node.block_frame = t.finalized_frame then .ok t
      else
        incrementLoop fuel
          { t with nodes := assocPut t.nodes h ({ node with score := (node.score + 1) % U64 }) }
          node.block_parent

/-- Outcome of `propose_block` / `create_node`. -/
inductive ProposeResult
  | ok (t : ForkChoiceTree)
  | err (e : ForkChoiceTreeError) (t : ForkChoiceTree)
  | panic
  | noFuel
deriving DecidableEq

/-- `ForkChoiceTree::create_node`: parent and height checks, node insertion
with `block_frame = finalized_frame + 1`, then the score walk. -/
def create_node (fuel : Nat) (t : ForkChoiceTree) (block_height : Nat)
    (block_parent block_hash : Digest) : ProposeResult :=
  match assocGet t.nodes block_parent with
  | none => .err (.invalidBlockParentHash block_parent) t
  | some parent =>
    if block_height ≠ (parent.block_height + 1) % U64 then
      .err (.invalidBlockHeight block_height) t
    else
      let t1 := { t with nodes := (assocPut t.nodes block_parent
                    { parent with children := parent.children ++ [block_hash] }) }
      let node : ForkChoiceTreeNode :=
        { block_frame := (t.finalized_frame + 1) % U64, block_height := block_height,
          block_parent := block_parent, block_hash := block_hash,
          score := 0, children := [] }
      let t2 := { t1 with nodes := assocPut t1.nodes block_hash node }
      match incrementLoop fuel t2 block_hash with
      | .ok t3 => .ok t3
      | .panic => .panic
      | .noFuel => .noFuel

/-- `ForkChoiceTree::propose_block`: a known hash only gets the score walk,
an unknown hash goes through `create_node`. -/
def propose_block (fuel : Nat) (t : ForkChoiceTree) (height : Nat)
    (parent hash : Digest) : ProposeResult :=
  if (assocGet t.nodes hash).isSome then
    match incrementLoop fuel t hash with
    | .ok t2 => .ok t2
    | .panic => .panic
    | .noFuel => .noFuel
  else
    create_node fuel t height parent hash

/-- Outcome of `finalize_block_frame`.  `panic` models the
`expect("node not found")` lookups during the descent. -/
inductive FinalizeResult
  | ok (frame : Nat) (head : Digest) (t : ForkChoiceTree)
  | unsolvable (d : Digest) (t : ForkChoiceTree)
  | panic
  | noFuel
deriving DecidableEq

/-- Rust `Iterator::max_by` on scores: the last of several maxima wins. -/
def maxByScoreLast : ForkChoiceTreeNode → List ForkChoiceTreeNode → ForkChoiceTreeNode
  | best, [] => best
  | best, n :: rest => maxByScoreLast (if best.score ≤ n.score then n else best) rest

/-- `ForkChoiceTree::finalize_block_frame`: descend from `finalized_head`;
at a leaf bump the frontier, through a single child descend, at a fork pick
the strictly heaviest child or fail with `UnsolvableFork(current)`. -/
def finalizeLoop : Nat → ForkChoiceTree → Digest → FinalizeResult
  | 0, _, _ => .noFuel
  | fuel + 1, t, cur =>
    match assocGet t.nodes cur with
    | none => .panic
    | some node =>
      match node.children with
      | [] =>
        .ok ((t.finalized_frame + 1) % U64) cur
          { t with finalized_frame := (t.finalized_frame + 1) % U64, finalized_head := cur }
      | [c] => finalizeLoop fuel t c
      | c1 :: c2 :: cs =>
        match (c1 :: c2 :: cs).mapM (assocGet t.nodes) with
        | none => .panic
        | some [] => .panic
        | some (n1 :: ns) =>
          let heaviest := maxByScoreLast n1 ns
          if 1 < ((n1 :: ns).filter (fun n => n.score == heaviest.score)).length then
            .unsolvable cur t
          else
            finalizeLoop fuel t heaviest.block_hash

/-- Entry point of the frame finalization walk. -/
def finalize_block_frame (fuel : Nat) (t : ForkChoiceTree) : FinalizeResult :=
  finalizeLoop fuel t t.finalized_head

/-- The maximal score among a list of nodes (used by the spec-side descent). -/
def specMaxScore (cns : List ForkChoiceTreeNode) : Nat :=
  cns.foldr (fun n acc => max n.score acc) 0

/-- Modelled from the spec (§4.1, FinalizeFrame): descend from a node
toward the leaves — at a leaf stop without a tie, through a single child
descend, at a fork find the maximal child score; if two or more children
share it the descent reaches a tie at the current node, otherwise descend
into the unique maximal child.  Returns the node at which a tie is
reached, if any.  This is the specification-worded characterization that
claim C7 compares against the implementation. -/
def specReachesTie : Nat → ForkChoiceTree → Digest → Option Digest
  | 0, _, _ => none
  | fuel + 1, t, cur =>
    match assocGet t.nodes cur with
    | none => none
    | some node =>
      match node.children with
      | [] => none
      | [c] => specReachesTie fuel t c
      | c1 :: c2 :: cs =>
        match (c1 :: c2 :: cs).mapM (assocGet t.nodes) with
        | none => none
        | some cns =>
          let m := specMaxScore cns
          if 2 ≤ (cns.filter (fun n => n.score == m)).length then some cur
          else
            match cns.find? (fun n => n.score == m) with
            | some best => specReachesTie fuel t best.block_hash
            | none => none

/-- Two nodes that agree on every field except possibly `score`. -/
def sameButScore (n n' : ForkChoiceTreeNode) : Prop :=
  n'.block_frame = n.block_frame ∧ n'.block_height = n.block_height ∧
  n'.block_parent = n.block_parent ∧ n'.block_hash = n.block_hash ∧
  n'.children = n.children

/-- Two trees with the same frontier and the same node map up to scores:
what a pure score-increment walk is allowed to change. -/
def OnlyScoresDiffer (t t' : ForkChoiceTree) : Prop :=
  t'.finalized_frame = t.finalized_frame ∧ t'.finalized_head = t.finalized_head ∧
  ∀ k, (assocGet t.nodes k = none ∧ assocGet t'.nodes k = none) ∨
       (∃ n n', assocGet t.nodes k = some n ∧ assocGet t'.nodes k = some n' ∧ sameButScore n n')

end ForkChoice

namespace Oracle

open ForkChoice

/-- Embedding of `BuilderAccount` from `oracle/src/types.rs`. -/
structure BuilderAccount where
  nonce : Nat
deriving DecidableEq

/-- Embedding of `BlockProposal`. -/
structure BlockProposal where
  block_height : Nat
  parent_hash : Digest
  block_hash : Digest
deriving DecidableEq

/-- Embedding of the oracle `Instruction` enum. -/
inductive Instruction
  | proposeBlock (p : BlockProposal)
deriving DecidableEq

/-- Embedding of the oracle `Transaction`; public keys and signatures are
opaque and modelled as natural numbers. -/
structure Transaction where
  nonce : Nat
  instruction : Instruction
  public_key : Nat
  signature : Nat
deriving DecidableEq

/-- Embedding of `Frame`. -/
structure Frame where
  frame_number : Nat
  chain_head : Digest
deriving DecidableEq

/-- Embedding of the oracle `Event` enum. -/
inductive Event
  | frameFinalized (f : Frame)
deriving DecidableEq

/-- Embedding of the oracle executor `State` from `oracle/src/execution.rs`. -/
structure State where
  builders : List (Nat × BuilderAccount)
  fork_tree : ForkChoiceTree
  finalize_frame_block_proposal_min : Nat
  frame_block_proposal_count : Nat
deriving DecidableEq

/-- `State::new`. -/
def State.new (genesis_block_hash : Digest) (finalize_frame_block_proposal_min : Nat) : State :=
  { builders := [],
    fork_tree := ForkChoiceTree.new genesis_block_hash,
    finalize_frame_block_proposal_min := finalize_frame_block_proposal_min,
    frame_block_proposal_count := 0 }

/-- Oracle `prepare_sender_account`: look the sender up in `builders`
(absent means invalid — the map is never default-populated), check the
nonce, then store the account with `nonce += 1` (wrapping `u64` add). -/
def prepare_sender_account (s : State) (tx : Transaction) : Option BuilderAccount × State :=
  match assocGet s.builders tx.public_key with
  | none => (none, s)
  | some account =>
    if account.nonce ≠ tx.nonce then (none, s)
    else
      let account1 : BuilderAccount := { nonce := (account.nonce + 1) % U64 }
      (some account1, { s with builders := assocPut s.builders tx.public_key account1 })

/-- Outcome of the oracle `apply_transaction`: `panic` models the `todo!()`
executed when `finalize_block_frame` returns an error, as well as panics
propagated from the fork-choice walks. -/
inductive ApplyResult
  | ok (events : List Event) (s : State)
  | invalid (s : State)
  | panic
  | noFuel
deriving DecidableEq

/-- Oracle `apply_transaction`: apply `ProposeBlock` through the fork tree,
count successful proposals, and attempt finalization once the counter
reaches the configured minimum.  The `Err` arm of `finalize_block_frame`
is a literal `todo!()` in the source, i.e. a panic. -/
def apply_transaction (fuel : Nat) (s : State) (tx : Transaction) : ApplyResult :=
  match tx.instruction with
  | .proposeBlock p =>
    match propose_block fuel s.fork_tree p.block_height p.parent_hash p.block_hash with
    | .err _ _ => .invalid s
    | .panic => .panic
    | .noFuel => .noFuel
    | .ok t1 =>
      let count1 := (s.frame_block_proposal_count + 1) % U64
      let s1 : State := { s with fork_tree := t1, frame_block_proposal_count := count1 }
      if s1.finalize_frame_block_proposal_min ≤ s1.frame_block_proposal_count then
        match finalize_block_frame fuel s1.fork_tree with
        | .ok frame_number chain_head t2 =>
          .ok [.frameFinalized { frame_number := frame_number, chain_head := chain_head }]
            { s1 with fork_tree := t2, frame_block_proposal_count := 0 }
        | .unsolvable _ _ => .panic
        | .panic => .panic
        | .noFuel => .noFuel
      else .ok [] s1

/-- Embedding of the oracle `StateTransitionResult`. -/
structure StateTransitionResult where
  processed_nonces : List (Nat × Nat)
  invalid_txs : List Transaction
  generated_events : List Event
deriving DecidableEq

/-- Outcome of the oracle `execute_state_transition`. -/
inductive ExecResult
  | ok (r : StateTransitionResult) (s : State)
  | panic
  | noFuel
deriving DecidableEq

/-- The per-transaction loop of the oracle `execute_state_transition`. -/
def executeLoop (fuel : Nat) : State → List Transaction →
    List (Nat × Nat) → List Transaction → List Event → ExecResult
  | s, [], processed, invalids, events =>
    .ok { processed_nonces := processed, invalid_txs := invalids, generated_events := events } s
  | s, tx :: rest, processed, invalids, events =>
    match prepare_sender_account s tx with
    | (none, s1) => executeLoop fuel s1 rest processed (invalids ++ [tx]) events
    | (some _, s1) =>
      match apply_transaction fuel s1 tx with
      | .invalid s2 => executeLoop fuel s2 rest processed (invalids ++ [tx]) events
      | .panic => .panic
      | .noFuel => .noFuel
      | .ok evs s2 =>
        executeLoop fuel s2 rest
          (assocPut processed tx.public_key (satAdd1 tx.nonce)) invalids (events ++ evs)

/-- Oracle `execute_state_transition`. -/
def execute_state_transition (fuel : Nat) (s : State) (txs : List Transaction) : ExecResult :=
  executeLoop fuel s txs [] [] []

end Oracle

namespace Swarm

/-- Embedding of the swarm `Account` from `swarm/src/types.rs`. -/
structure Account where
  nonce : Nat
  bread : Nat
deriving DecidableEq

/-- `Account::default()`. -/
def Account.default : Account := { nonce := 0, bread := 0 }

/-- Embedding of `CommitMetadata`. -/
structure CommitMetadata where
  height : Nat
  start : Nat
deriving DecidableEq

/-- Embedding of the swarm `Value` enum. -/
inductive Value
  | account (a : Account)
  | commitMetadata (m : CommitMetadata)
deriving DecidableEq

/-- Embedding of the swarm `Key` enum; public keys are opaque naturals. -/
inductive SKey
  | account (pk : Nat)
deriving DecidableEq

/-- Embedding of `TransferBread`. -/
structure TransferBread where
  amount : Nat
  to_pk : Nat
deriving DecidableEq

/-- Embedding of the swarm `Instruction` enum. -/
inductive Instruction
  | transferBread (t : TransferBread)
deriving DecidableEq

/-- Embedding of the swarm `Transaction`. -/
structure Transaction where
  nonce : Nat
  instruction : Instruction
  public_key : Nat
  signature : Nat
deriving DecidableEq

/-- Embedding of `StateOperation` from `swarm/src/execution.rs`. -/
inductive StateOperation
  | update (v : Value)
  | delete
deriving DecidableEq

/-- Read through the overlay (`StateLayer::get`): a pending update wins, a
pending delete reads as absent, otherwise fall back to the committed
store, which is modelled as a plain function from keys to values. -/
def layerGet (pending : List (SKey × StateOperation)) (base : SKey → Option Value)
    (k : SKey) : Option Value :=
  match assocGet pending k with
  | some (.update v) => some v
  | some .delete => none
  | none => base k

/-- Swarm `StateLayer::prepare_sender_account`: read the sender `Account`
through the overlay (absent or a non-account value means invalid), check
the nonce, and return the account with `nonce += 1` (wrapping `u64` add).
Nothing is staged here. -/
def prepare_sender_account (pending : List (SKey × StateOperation))
    (base : SKey → Option Value) (tx : Transaction) : Option Account :=
  match layerGet pending base (SKey.account tx.public_key) with
  | some (.account account) =>
    if account.nonce ≠ tx.nonce then none
    else some { account with nonce := (account.nonce + 1) % U64 }
  | _ => none

/-- Swarm `StateLayer::apply_transfer_bread`: balance check, then read the
receiver through the overlay, stage the debited sender, and finally stage
the credited receiver (overwriting the sender staging when `to` equals the
sender).  Returns the validity flag together with the new overlay. -/
def apply_transfer_bread (pending : List (SKey × StateOperation))
    (base : SKey → Option Value) (sender_pk : Nat) (sender : Account)
    (tx : TransferBread) : List (SKey × StateOperation) × Bool :=
  if sender.bread < tx.amount then (pending, false)
  else
    let receiver :=
      match layerGet pending base (SKey.account tx.to_pk) with
      | some (.account account) => account
      | _ => Account.default
    let tx_sender : Account := { sender with bread := sender.bread - tx.amount }
    let p1 := assocPut pending (SKey.account sender_pk) (.update (.account tx_sender))
    let receiver1 : Account := { receiver with bread := (receiver.bread + tx.amount) % U64 }
    let p2 := assocPut p1 (SKey.account tx.to_pk) (.update (.account receiver1))
    (p2, true)

/-- The body of the per-transaction loop in `StateLayer::execute`: returns
the overlay after the transaction and whether it was valid. -/
def executeStep (base : SKey → Option Value) (pending : List (SKey × StateOperation))
    (tx : Transaction) : List (SKey × StateOperation) × Bool :=
  match prepare_sender_account pending base tx with
  | none => (pending, false)
  | some sender =>
    match tx.instruction with
    | .transferBread i => apply_transfer_bread pending base tx.public_key sender i

/-- Result of `StateLayer::execute` together with the final overlay. -/
structure LayerOut where
  pending : List (SKey × StateOperation)
  processed_nonces : List (Nat × Nat)
  invalid_txs : List Transaction
deriving DecidableEq

/-- The transaction loop of `StateLayer::execute`. -/
def executeLoop (base : SKey → Option Value) :
    List Transaction → List (SKey × StateOperation) →
    List (Nat × Nat) → List Transaction → LayerOut
  | [], pending, processed, invalids =>
    { pending := pending, processed_nonces := processed, invalid_txs := invalids }
  | tx :: rest, pending, processed, invalids =>
    let r := executeStep base pending tx
    if r.2 then
      executeLoop base rest r.1 (assocPut processed tx.public_key (satAdd1 tx.nonce)) invalids
    else
      executeLoop base rest r.1 processed (invalids ++ [tx])

/-- `StateLayer::execute` on a fresh overlay. -/
def execute (base : SKey → Option Value) (txs : List Transaction) : LayerOut :=
  executeLoop base txs [] [] []

/-- The view of the committed store after `State::apply` has replayed the
overlay (each entry an update or a delete) into the authenticated KV. -/
def committedGet (base : SKey → Option Value) (pending : List (SKey × StateOperation))
    (k : SKey) : Option Value :=
  match assocGet pending k with
  | some (.update v) => some v
  | some .delete => none
  | none => base k

section Codec

/-- Big-endian encoding of a `u64`, as produced by `u64::write`. -/
def u64be (n : Nat) : List Nat :=
  [n / 2 ^ 56 % 256, n / 2 ^ 48 % 256, n / 2 ^ 40 % 256, n / 2 ^ 32 % 256,
   n / 2 ^ 24 % 256, n / 2 ^ 16 % 256, n / 2 ^ 8 % 256, n % 256]

/-- `Account::write`: nonce then bread, both big-endian `u64`. -/
def writeAccount (a : Account) : List Nat :=
  u64be a.nonce ++ u64be a.bread

/-- `Value::write` as implemented in `swarm/src/types.rs`: tag byte `0` plus
the full account body, or tag byte `1` plus ONLY `height` (the source
writes `v.height.write(buf)` and never writes `start`). -/
def writeValue : Value → List Nat
  | .account v => 0 :: writeAccount v
  | .commitMetadata v => 1 :: u64be v.height

/-- `EncodeSize` for `Account`: 8 + 8 bytes. -/
def encodeSizeAccount (_ : Account) : Nat := 8 + 8

/-- `EncodeSize` for `CommitMetadata`: 8 + 8 bytes. -/
def encodeSizeCommitMetadata (_ : CommitMetadata) : Nat := 8 + 8

/-- `EncodeSize` for `Value`: one tag byte plus the variant body size. -/
def encodeSizeValue : Value → Nat
  | .account v => 1 + encodeSizeAccount v
  | .commitMetadata v => 1 + encodeSizeCommitMetadata v

/-- Embedding of `commonware_codec::Error` as far as this crate uses it. -/
inductive CodecError
  | endOfBuffer
  | invalidEnum (tag : Nat)
deriving DecidableEq

/-- Read a big-endian `u64`, consuming eight bytes. -/
def readU64be : List Nat → Except CodecError (Nat × List Nat)
  | b0 :: b1 :: b2 :: b3 :: b4 :: b5 :: b6 :: b7 :: rest =>
    .ok (b0 * 2 ^ 56 + b1 * 2 ^ 48 + b2 * 2 ^ 40 + b3 * 2 ^ 32 +
         b4 * 2 ^ 24 + b5 * 2 ^ 16 + b6 * 2 ^ 8 + b7, rest)
  | _ => .error .endOfBuffer

/-- `Account::read_cfg`: nonce then bread. -/
def readAccount (buf : List Nat) : Except CodecError (Account × List Nat) := do
  let (nonce, buf) ← readU64be buf
  let (bread, buf) ← readU64be buf
  .ok ({ nonce := nonce, bread := bread }, buf)

/-- `CommitMetadata::read_cfg`: height then start. -/
def readCommitMetadata (buf : List Nat) : Except CodecError (CommitMetadata × List Nat) := do
  let (height, buf) ← readU64be buf
  let (start, buf) ← readU64be buf
  .ok ({ height := height, start := start }, buf)

/-- `Value::read_cfg`: a tag byte selecting the variant body. -/
def readValue : List Nat → Except CodecError (Value × List Nat)
  | [] => .error .endOfBuffer
  | tag :: rest =>
    match tag with
    | 0 => (readAccount rest).map (fun r => (.account r.1, r.2))
    | 1 => (readCommitMetadata rest).map (fun r => (.commitMetadata r.1, r.2))
    | d => .error (.invalidEnum d)

end Codec

end Swarm

namespace Mem

/-- Mempool transactions: the `MempoolTransaction` trait is instantiated
with an opaque record whose `digestVal` field models the SHA-256
transaction digest (the mempool only ever compares digests). -/
structure MTx where
  public_key : Nat
  nonce : Nat
  digestVal : Nat
deriving DecidableEq

/-- `MAX_BACKLOG` from `common/src/mempool.rs`. -/
def MAX_BACKLOG : Nat := 16

/-- `MAX_TRANSACTIONS` from `common/src/mempool.rs`. -/
def MAX_TRANSACTIONS : Nat := 32768

/-- Embedding of `Mempool`: `transactions` maps digests to transactions,
`tracked` maps originators to nonce-sorted maps of digests, and `queue` is
the round-robin deque of originators (metrics gauges are omitted). -/
structure Mempool where
  transactions : List (Nat × MTx)
  tracked : List (Nat × List (Nat × Nat))
  queue : List Nat
deriving DecidableEq

/-- `Mempool::new` (metrics registration omitted). -/
def Mempool.empty : Mempool := { transactions := [], tracked := [], queue := [] }

/-- `BTreeMap::contains_key` on a nonce-sorted association list. -/
def btContains (e : List (Nat × Nat)) (k : Nat) : Bool := (assocGet e k).isSome

/-- `BTreeMap::insert` on a nonce-sorted association list. -/
def btInsert : List (Nat × Nat) → Nat → Nat → List (Nat × Nat)
  | [], k, v => [(k, v)]
  | (k1, v1) :: rest, k, v =>
    if k < k1 then (k, v) :: (k1, v1) :: rest
    else if k = k1 then (k, v) :: rest
    else (k1, v1) :: btInsert rest k v

/-- `BTreeMap::pop_last`: the largest key with the remaining map. -/
def btPopLast : List (Nat × Nat) → Option (Nat × List (Nat × Nat))
  | [] => none
  | [(_, d)] => some (d, [])
  | x :: y :: rest => (btPopLast (y :: rest)).map (fun r => (r.1, x :: r.2))

/-- `Mempool::add`: capacity check, duplicate-digest check, per-account
duplicate-nonce check, insertion, eviction of the largest nonce when the
backlog exceeds `MAX_BACKLOG`, and a queue append when this was the
account's first tracked entry. -/
def Mempool.add (m : Mempool) (tx : MTx) : Mempool :=
  if MAX_TRANSACTIONS ≤ m.transactions.length then m
  else if (assocGet m.transactions tx.digestVal).isSome then m
  else
    let entry := (assocGet m.tracked tx.public_key).getD []
    if btContains entry tx.nonce then m
    else
      let entry1 := btInsert entry tx.nonce tx.digestVal
      let txs1 := assocPut m.transactions tx.digestVal tx
      let entries := entry1.length
      let pruned :=
        if MAX_BACKLOG < entries then
          match btPopLast entry1 with
          | some (future, rest) => (rest, assocRemove txs1 future)
          | none => (entry1, txs1)
        else (entry1, txs1)
      { transactions := pruned.2,
        tracked := assocPut m.tracked tx.public_key pruned.1,
        queue := if entries = 1 then m.queue ++ [tx.public_key] else m.queue }

/-- The pop-front loop of `Mempool::retain`: drop entries with nonce below
the minimum, erasing their transactions; the boolean reports whether the
tracked map was emptied. -/
def retainLoop : List (Nat × Nat) → Nat → List (Nat × MTx) →
    Bool × List (Nat × Nat) × List (Nat × MTx)
  | [], _, txs => (true, [], txs)
  | (nonce, digest) :: rest, min, txs =>
    if min ≤ nonce then (false, (nonce, digest) :: rest, txs)
    else retainLoop rest min (assocRemove txs digest)

/-- `Mempool::retain`. -/
def Mempool.retain (m : Mempool) (pk min : Nat) : Mempool :=
  match assocGet m.tracked pk with
  | none => m
  | some entry =>
    let r := retainLoop entry min m.transactions
    if r.1 then
      { m with transactions := r.2.2, tracked := assocRemove m.tracked pk }
    else
      { m with transactions := r.2.2, tracked := assocPut m.tracked pk r.2.1 }

/-- Outcome of `Mempool::next`: `empty` carries the mempool after all the
stale queue entries have been consumed, and `panic` models the
`transactions.remove(&digest).unwrap()` failure. -/
inductive NextOutcome
  | empty (m : Mempool)
  | drawn (tx : MTx) (m : Mempool)
  | panic
deriving DecidableEq

/-- The queue-pop loop of `Mempool::next`: skip originators that are no
longer tracked (or whose map is empty), pop the smallest nonce of the
first live originator, re-append it to the queue when entries remain, and
remove the drawn transaction from the pool. -/
def nextLoop : List Nat → List (Nat × List (Nat × Nat)) → List (Nat × MTx) → NextOutcome
  | [], tracked, txs => .empty { transactions := txs, tracked := tracked, queue := [] }
  | pk :: rest, tracked, txs =>
    match assocGet tracked pk with
    | none => nextLoop rest tracked txs
    | some [] => nextLoop rest tracked txs
    | some ((_, digest) :: entryRest) =>
      let tracked1 :=
        if entryRest.isEmpty then assocRemove tracked pk else assocPut tracked pk entryRest
      let queue1 := if entryRest.isEmpty then rest else rest ++ [pk]
      match assocGet txs digest with
      | none => .panic
      | some tx =>
        .drawn tx { transactions := assocRemove txs digest, tracked := tracked1, queue := queue1 }

/-- `Mempool::next`. -/
def Mempool.next (m : Mempool) : NextOutcome := nextLoop m.queue m.tracked m.transactions

/-- A window of `k` successful consecutive draws: the drawn transactions
paired with the mempool state right after each draw. -/
def drawTrace : Nat → Mempool → Option (List (MTx × Mempool))
  | 0, _ => some []
  | k + 1, m =>
    match m.next with
    | .drawn tx m1 => (drawTrace k m1).map (fun l => (tx, m1) :: l)
    | _ => none

/-- An originator whose tracked backlog is absent or empty; such queue
entries are skipped by `Mempool::next`. -/
def staleIn (tracked : List (Nat × List (Nat × Nat))) (pk : Nat) : Prop :=
  assocGet tracked pk = none ∨ assocGet tracked pk = some []

instance (tracked : List (Nat × List (Nat × Nat))) (pk : Nat) :
    Decidable (staleIn tracked pk) := by
  unfold staleIn; infer_instance

/-- Boolean test for a non-empty tracked backlog. -/
def liveIn (m : Mempool) (pk : Nat) : Bool := !((assocGet m.tracked pk).getD []).isEmpty

/-- Whether `a` occurs strictly before any occurrence of `b` in the queue
(scanning from the front; false if neither occurs). -/
def firstOf (a b : Nat) : List Nat → Bool
  | [] => false
  | x :: rest => if x = a then true else if x = b then false else firstOf a b rest

/-- A tracked pair `(n, d)` is consistent when the transaction pool maps
`d` to a transaction from the right originator with the right nonce. -/
def txConsistentB (txs : List (Nat × MTx)) (pk n d : Nat) : Bool :=
  match assocGet txs d with
  | some tx => tx.public_key == pk && tx.nonce == n
  | none => false

/-- The structural invariants of a reachable mempool state (spec §3):
unique keys in both maps, nonce-sorted per-account maps, every tracked
digest present in `transactions` under the right originator and nonce,
and no digest referenced from two tracked slots. -/
structure WF (m : Mempool) : Prop where
  nodupTracked : (m.tracked.map Prod.fst).Nodup
  nodupTx : (m.transactions.map Prod.fst).Nodup
  sorted : ∀ pe ∈ m.tracked, List.Chain' (· < ·) (pe.2.map Prod.fst)
  consistent : ∀ pe ∈ m.tracked, ∀ nd ∈ pe.2,
      txConsistentB m.transactions pe.1 nd.1 nd.2 = true
  uniqueRef : ∀ pe ∈ m.tracked, ∀ nd ∈ pe.2, ∀ pe2 ∈ m.tracked, ∀ nd2 ∈ pe2.2,
      nd.2 = nd2.2 → pe.1 = pe2.1 ∧ nd.1 = nd2.1

/-- The inductive invariant of the round-robin fairness argument for two
distinct originators `a` and `b`: both are live, each occupies at most one
queue slot, and whichever is closer to the queue front has been drawn at
most as often as the other (within one). -/
structure FairInv (a b : Nat) (m : Mempool) (ca cb : Nat) : Prop where
  wf : WF m
  liveA : liveIn m a = true
  liveB : liveIn m b = true
  countA : m.queue.count a ≤ 1
  countB : m.queue.count b ≤ 1
  memA : a ∈ m.queue
  memB : b ∈ m.queue
  order : (firstOf a b m.queue = true ∧ ca ≤ cb ∧ cb ≤ ca + 1) ∨
          (firstOf b a m.queue = true ∧ cb ≤ ca ∧ ca ≤ cb + 1)

/-- The mempool built by `add(pk1, n0); retain(pk1, 1); add(pk1, n1);
add(pk1, n2); add(pk1, n3); add(pk2, n10)`: the retain empties originator
1 without pruning its queue slot, and the following add enqueues it again,
so originator 1 holds two queue slots. -/
def mC8 : Mempool :=
  (((((Mempool.empty.add { public_key := 1, nonce := 0, digestVal := 100 }).retain 1 1).add
      { public_key := 1, nonce := 1, digestVal := 101 }).add
      { public_key := 1, nonce := 2, digestVal := 102 }).add
      { public_key := 1, nonce := 3, digestVal := 103 }).add
      { public_key := 2, nonce := 10, digestVal := 200 }

/-- A well-formed two-originator mempool with single queue slots, used to
witness the amended fairness claim. -/
def mWit : Mempool :=
  { transactions := [
      (100, { public_key := 1, nonce := 0, digestVal := 100 }),
      (101, { public_key := 1, nonce := 1, digestVal := 101 }),
      (200, { public_key := 2, nonce := 5, digestVal := 200 }),
      (201, { public_key := 2, nonce := 6, digestVal := 201 })],
    tracked := [(1, [(0, 100), (1, 101)]), (2, [(5, 200), (6, 201)])],
    queue := [1, 2] }

end Mem

section ExampleStates

open ForkChoice

/-- A fork-choice tree state whose root sits exactly at the finalized
frame, with two children (scores 1 and 2); duplicate-proposing child `1`
brings the scores to a 2/2 tie. -/
def tieTree : ForkChoiceTree :=
  { nodes := [
      (17, { block_frame := 1, block_height := 0, block_parent := 0,
             block_hash := 17, score := 0, children := [1, 2] }),
      (1, { block_frame := 2, block_height := 1, block_parent := 17,
            block_hash := 1, score := 1, children := [] }),
      (2, { block_frame := 2, block_height := 1, block_parent := 17,
            block_hash := 2, score := 2, children := [] })],
    finalized_frame := 1,
    finalized_head := 17 }

/-- The scenario-S2 shape: two children of the finalized head with equal
scores, an immediate unsolvable fork. -/
def tiedTree : ForkChoiceTree :=
  { nodes := [
      (17, { block_frame := 1, block_height := 0, block_parent := 0,
             block_hash := 17, score := 0, children := [1, 2] }),
      (1, { block_frame := 2, block_height := 1, block_parent := 17,
            block_hash := 1, score := 1, children := [] }),
      (2, { block_frame := 2, block_height := 1, block_parent := 17,
            block_hash := 2, score := 1, children := [] })],
    finalized_frame := 1,
    finalized_head := 17 }

/-- Oracle state around `tieTree` with a finalization threshold of one
proposal, so the next successful proposal triggers `finalize_block_frame`. -/
def oracleTieState : Oracle.State :=
  { builders := [],
    fork_tree := tieTree,
    finalize_frame_block_proposal_min := 1,
    frame_block_proposal_count := 0 }

/-- A duplicate proposal of the existing node `1` in `tieTree`. -/
def oracleTieTx : Oracle.Transaction :=
  { nonce := 0, instruction := .proposeBlock { block_height := 9, parent_hash := 9, block_hash := 1 },
    public_key := 42, signature := 0 }

/-- Oracle state whose only builder account sits at nonce `u64::MAX`. -/
def oracleMaxState : Oracle.State :=
  { builders := [(5, { nonce := U64 - 1 })],
    fork_tree := ForkChoiceTree.new 17,
    finalize_frame_block_proposal_min := 3,
    frame_block_proposal_count := 0 }

/-- A transaction from that builder carrying the matching nonce `u64::MAX`. -/
def oracleMaxTx : Oracle.Transaction :=
  { nonce := U64 - 1, instruction := .proposeBlock { block_height := 1, parent_hash := 17, block_hash := 1 },
    public_key := 5, signature := 0 }

/-- Swarm committed store holding one account at nonce `u64::MAX`. -/
def swarmMaxBase : Swarm.SKey → Option Swarm.Value :=
  fun k => if k = Swarm.SKey.account 5 then some (.account { nonce := U64 - 1, bread := 9 }) else none

/-- A swarm transfer from that account with the matching nonce `u64::MAX`. -/
def swarmMaxTx : Swarm.Transaction :=
  { nonce := U64 - 1, instruction := .transferBread { amount := 0, to_pk := 5 },
    public_key := 5, signature := 0 }

end ExampleStates

end FCN

namespace FCN

/-! ## Claim theorems -/

open ForkChoice

/-- Claim C1 (status: code bug).  The claim asserts that, starting from a
freshly constructed tree with genesis root, `Propose(1, root, A)` (and the
follow-ups) succeed and accumulate scores A=2, B=1 with finalization heads
A then C.  In the source, the very first proposal already panics: the
score walk stops only at a node whose frame equals `finalized_frame = 1`,
but the root has frame 0, so the walk increments the root and then looks
up the root's zero-digest parent, hitting `expect("node not found")`. -/
theorem C1_fresh_propose_panics :
    propose_block 10 (ForkChoiceTree.new 17) 1 17 1 = .panic := by decide

/-- Claim C3 (status: code bug).  With the proposal counter reaching the
threshold and `finalize_block_frame` returning `UnsolvableFork`, the
oracle's `apply_transaction` executes the literal `todo!()` of its `Err`
arm — a panic — instead of surfacing the error with the counter retained,
as the claim and spec require. -/
theorem C3_unsolvable_fork_todo_panics :
    Oracle.apply_transaction 10 oracleTieState oracleTieTx = .panic := by decide

/-- Claim C4 (status: code bug).  The claim (and spec §4.4) says an
originator absent from `builders` is processed against a default account
with nonce 0, so a nonce-0 transaction is valid.  The source instead
returns `None` from `prepare_sender_account` whenever the sender is
absent: on a fresh oracle state a nonce-0 transaction lands in
`invalid_txs`, no nonce is recorded, and `builders` stays empty. -/
theorem C4_absent_sender_marked_invalid :
    Oracle.execute_state_transition 10 (Oracle.State.new 17 5)
      [{ nonce := 0, instruction := .proposeBlock { block_height := 1, parent_hash := 17, block_hash := 1 },
         public_key := 42, signature := 0 }] =
    .ok { processed_nonces := [],
          invalid_txs := [{ nonce := 0, instruction := .proposeBlock { block_height := 1, parent_hash := 17, block_hash := 1 },
                            public_key := 42, signature := 0 }],
          generated_events := [] }
      (Oracle.State.new 17 5) := by decide

/-- Claim C5 (status: code bug).  The claim says every `Value` encodes as a
tag byte plus the full body (height then start for `CommitMetadata`), with
length `encode_size` and a successful round trip.  The source's
`Value::write` emits only `height` for the `CommitMetadata` variant: the
encoding is 9 bytes while `encode_size` reports 17, and decoding the
encoding fails with an end-of-buffer error while reading `start`. -/
theorem C5_commit_metadata_encoding_broken :
    Swarm.writeValue (.commitMetadata { height := 1, start := 2 }) = 1 :: Swarm.u64be 1
    ∧ (Swarm.writeValue (.commitMetadata { height := 1, start := 2 })).length = 9
    ∧ Swarm.encodeSizeValue (.commitMetadata { height := 1, start := 2 }) = 17
    ∧ Swarm.readValue (Swarm.writeValue (.commitMetadata { height := 1, start := 2 }))
        = .error .endOfBuffer := ⟨by decide, by decide, by decide, by rfl⟩

/-- Counterexample for C8 as stated.  After `add(1,n0)`, `retain(1,1)`,
`add(1,n1..n3)`, `add(2,n10)` the queue is `[1, 1, 2]`: the retain emptied
originator 1's backlog without pruning its queue slot and the next add
appended it again.  In the following window of two draws both originators'
backlogs are non-empty throughout, yet originator 1 is drawn twice and
originator 2 not at all — the claimed difference bound of 1 fails. -/
theorem C8_fairness_counterexample :
    ((Mem.drawTrace 2 Mem.mC8).getD []).map (fun p : Mem.MTx × Mem.Mempool => p.1.public_key) = [1, 1]
    ∧ (((Mem.drawTrace 2 Mem.mC8).getD []).map (fun p : Mem.MTx × Mem.Mempool => p.1.public_key)).count 1 = 2
    ∧ (((Mem.drawTrace 2 Mem.mC8).getD []).map (fun p : Mem.MTx × Mem.Mempool => p.1.public_key)).count 2 = 0
    ∧ Mem.liveIn Mem.mC8 1 = true ∧ Mem.liveIn Mem.mC8 2 = true
    ∧ ((Mem.drawTrace 2 Mem.mC8).getD []).all
        (fun p : Mem.MTx × Mem.Mempool => Mem.liveIn p.2 1 && Mem.liveIn p.2 2) = true
    ∧ Mem.mC8.queue = [1, 1, 2] := by decide

/-- Lookup after insert-or-replace behaves like a pointwise map update. -/
theorem assoc_get_put {α β : Type} [DecidableEq α] (m : List (α × β)) (k k' : α) (v : β) :
    assocGet (assocPut m k v) k' = if k = k' then some v else assocGet m k' := by
  induction m with
  | nil => simp [assocGet, assocPut]
  | cons p rest ih =>
    obtain ⟨a, b⟩ := p
    by_cases hak : a = k
    · subst hak
      by_cases hak' : a = k'
      · subst hak'
        simp [assocPut, assocGet]
      · simp [assocPut, assocGet, hak']
    · by_cases hak' : a = k'
      · subst hak'
        have hkk : k ≠ a := fun hk => hak hk.symm
        simp [assocPut, assocGet, hak, hkk]
      · simp [assocPut, assocGet, hak, hak', ih]

/-- The running Rust `max_by` fold returns an element of its input. -/
theorem fc_mbsl_mem (b : ForkChoiceTreeNode) (l : List ForkChoiceTreeNode) :
    maxByScoreLast b l ∈ b :: l := by
  induction l generalizing b with
  | nil => simp [maxByScoreLast]
  | cons n rest ih =>
    show maxByScoreLast (if b.score ≤ n.score then n else b) rest ∈ b :: n :: rest
    rcases List.mem_cons.mp (ih (if b.score ≤ n.score then n else b)) with h1 | h2
    · rw [h1]
      split
      · simp
      · simp
    · simp [h2]

/-- The running Rust `max_by` fold dominates every input score. -/
theorem fc_mbsl_ge (b : ForkChoiceTreeNode) (l : List ForkChoiceTreeNode) :
    ∀ x ∈ b :: l, x.score ≤ (maxByScoreLast b l).score := by
  induction l generalizing b with
  | nil =>
    intro x hx
    simp only [List.mem_singleton] at hx
    rw [hx]
    simp [maxByScoreLast]
  | cons n rest ih =>
    intro x hx
    show x.score ≤ (maxByScoreLast (if b.score ≤ n.score then n else b) rest).score
    have hbn : b.score ≤ (if b.score ≤ n.score then n else b).score := by
      split
      · assumption
      · exact Nat.le_refl _
    have hnn : n.score ≤ (if b.score ≤ n.score then n else b).score := by
      split
      · exact Nat.le_refl _
      · omega
    have hh := ih (if b.score ≤ n.score then n else b)
    rcases List.mem_cons.mp hx with h1 | h2
    · rw [h1]
      exact Nat.le_trans hbn (hh _ (List.mem_cons_self _ _))
    · rcases List.mem_cons.mp h2 with h3 | h4
      · rw [h3]
        exact Nat.le_trans hnn (hh _ (List.mem_cons_self _ _))
      · exact hh x (List.mem_cons_of_mem _ h4)

/-- Every score in a node list is bounded by `specMaxScore`. -/
theorem fc_specMax_ge (cns : List ForkChoiceTreeNode) :
    ∀ x ∈ cns, x.score ≤ specMaxScore cns := by
  induction cns with
  | nil => intro x hx; cases hx
  | cons n rest ih =>
    intro x hx
    rcases List.mem_cons.mp hx with h1 | h2
    · rw [h1]; exact Nat.le_max_left _ _
    · exact Nat.le_trans (ih x h2) (Nat.le_max_right _ _)

/-- An upper bound on all scores bounds `specMaxScore`. -/
theorem fc_specMax_le (cns : List ForkChoiceTreeNode) (M : Nat)
    (h : ∀ x ∈ cns, x.score ≤ M) : specMaxScore cns ≤ M := by
  induction cns with
  | nil => exact Nat.zero_le _
  | cons n rest ih =>
    show max n.score (specMaxScore rest) ≤ M
    exact max_le (h n (List.mem_cons_self _ _))
      (ih fun x hx => h x (List.mem_cons_of_mem _ hx))

/-- The `max_by` fold computes exactly the maximal score. -/
theorem fc_mbsl_score (n1 : ForkChoiceTreeNode) (ns : List ForkChoiceTreeNode) :
    (maxByScoreLast n1 ns).score = specMaxScore (n1 :: ns) :=
  Nat.le_antisymm (fc_specMax_ge _ _ (fc_mbsl_mem n1 ns))
    (fc_specMax_le _ _ (fc_mbsl_ge n1 ns))

/-- When the maximal score is unshared, the spec-side first maximal child
coincides with the implementation's last maximal child. -/
theorem fc_find_eq_mbsl (n1 : ForkChoiceTreeNode) (ns : List ForkChoiceTreeNode)
    (h : ((n1 :: ns).filter (fun n => n.score == specMaxScore (n1 :: ns))).length ≤ 1) :
    (n1 :: ns).find? (fun n => n.score == specMaxScore (n1 :: ns))
      = some (maxByScoreLast n1 ns) := by
  have hmem : maxByScoreLast n1 ns ∈ n1 :: ns := fc_mbsl_mem n1 ns
  have hs : (maxByScoreLast n1 ns).score = specMaxScore (n1 :: ns) := fc_mbsl_score n1 ns
  have hbeq : ((maxByScoreLast n1 ns).score == specMaxScore (n1 :: ns)) = true := by
    simp [hs]
  have hfil : maxByScoreLast n1 ns
      ∈ (n1 :: ns).filter (fun n => n.score == specMaxScore (n1 :: ns)) :=
    List.mem_filter.mpr ⟨hmem, hbeq⟩
  have hisSome : ((n1 :: ns).find? (fun n => n.score == specMaxScore (n1 :: ns))).isSome := by
    rw [List.find?_isSome]
    exact ⟨maxByScoreLast n1 ns, hmem, hbeq⟩
  obtain ⟨y, hy⟩ := Option.isSome_iff_exists.mp hisSome
  have hymem : y ∈ n1 :: ns := List.mem_of_find?_eq_some hy
  have hyp := List.find?_some hy
  have hyfil : y ∈ (n1 :: ns).filter (fun n => n.score == specMaxScore (n1 :: ns)) :=
    List.mem_filter.mpr ⟨hymem, hyp⟩
  have hpos : 0 < ((n1 :: ns).filter (fun n => n.score == specMaxScore (n1 :: ns))).length :=
    List.length_pos_of_mem hfil
  have hlen : ((n1 :: ns).filter (fun n => n.score == specMaxScore (n1 :: ns))).length = 1 := by
    omega
  obtain ⟨z, hz⟩ := List.length_eq_one.mp hlen
  rw [hz] at hfil hyfil
  simp only [List.mem_singleton] at hfil hyfil
  rw [hy, hyfil, hfil]

/-- The finalization walk never mutates the tree it fails on: any
`unsolvable` outcome carries the input tree. -/
theorem fc_finalize_unsolvable_tree :
    ∀ (fuel : Nat) (t : ForkChoiceTree) (cur d : ForkChoice.Digest) (t' : ForkChoiceTree),
      finalizeLoop fuel t cur = .unsolvable d t' → t' = t := by
  intro fuel
  induction fuel with
  | zero => intro t cur d t' h; simp [finalizeLoop] at h
  | succ fuel ih =>
    intro t cur d t' h
    rw [finalizeLoop] at h
    cases hg : assocGet t.nodes cur with
    | none => simp [hg] at h
    | some node =>
      simp only [hg] at h
      cases hc : node.children with
      | nil => simp [hc] at h
      | cons c1 ctail =>
        cases ctail with
        | nil =>
          simp only [hc] at h
          exact ih t c1 d t' h
        | cons c2 cs =>
          simp only [hc] at h
          cases hm : List.mapM (assocGet t.nodes) (c1 :: c2 :: cs) with
          | none => rw [hm] at h; cases h
          | some cns =>
            rw [hm] at h
            cases cns with
            | nil => cases h
            | cons n1 ns =>
              simp only at h
              by_cases hcond : 1 < ((n1 :: ns).filter
                  (fun n => n.score == (maxByScoreLast n1 ns).score)).length
              · rw [if_pos hcond] at h
                cases h
                rfl
              · rw [if_neg hcond] at h
                exact ih t (maxByScoreLast n1 ns).block_hash d t' h

/-- The implementation's finalization walk fails with `UnsolvableFork(d)`
precisely when the spec-worded descent from the same node reaches a tie
at `d`. -/
theorem fc_finalize_unsolvable_iff :
    ∀ (fuel : Nat) (t : ForkChoiceTree) (cur d : ForkChoice.Digest),
      (finalizeLoop fuel t cur = .unsolvable d t) ↔ specReachesTie fuel t cur = some d := by
  intro fuel
  induction fuel with
  | zero => intro t cur d; simp [finalizeLoop, specReachesTie]
  | succ fuel ih =>
    intro t cur d
    rw [finalizeLoop, specReachesTie]
    cases hg : assocGet t.nodes cur with
    | none => simp
    | some node =>
      simp only
      cases hc : node.children with
      | nil => simp
      | cons c1 ctail =>
        cases ctail with
        | nil => exact ih t c1 d
        | cons c2 cs =>
          simp only
          cases hm : List.mapM (assocGet t.nodes) (c1 :: c2 :: cs) with
          | none => simp
          | some cns =>
            simp only
            cases cns with
            | nil => simp [specMaxScore]
            | cons n1 ns =>
              simp only
              have hsc : (maxByScoreLast n1 ns).score = specMaxScore (n1 :: ns) :=
                fc_mbsl_score n1 ns
              simp only [hsc]
              by_cases hcond : 2 ≤ ((n1 :: ns).filter
                  (fun n => n.score == specMaxScore (n1 :: ns))).length
              · have hcond1 : 1 < ((n1 :: ns).filter
                    (fun n => n.score == specMaxScore (n1 :: ns))).length := hcond
                rw [if_pos hcond1, if_pos hcond]
                constructor
                · intro hh; cases hh; rfl
                · intro hh
                  cases hh
                  rfl
              · have hcond1 : ¬ 1 < ((n1 :: ns).filter
                    (fun n => n.score == specMaxScore (n1 :: ns))).length := hcond
                rw [if_neg hcond1, if_neg hcond,
                  fc_find_eq_mbsl n1 ns (by omega)]
                exact ih t (maxByScoreLast n1 ns).block_hash d

/-- Claim C7 (status: confirmed).  `finalize_block_frame` is a pure
function of the tree (determinism is immediate in this embedding); on an
`UnsolvableFork` outcome the returned tree is the input tree — no node
score, child list, or frontier field changes — and the failure occurs
exactly when the spec-worded descent from `finalized_head` reaches a node
whose maximal child score is shared by two or more children. -/
theorem C7_finalize_unsolvable_characterization :
    ∀ (fuel : Nat) (t : ForkChoiceTree) (d : ForkChoice.Digest) (t' : ForkChoiceTree),
      (finalize_block_frame fuel t = .unsolvable d t' → t' = t)
      ∧ (finalize_block_frame fuel t = .unsolvable d t
          ↔ specReachesTie fuel t t.finalized_head = some d) := by
  intro fuel t d t'
  exact ⟨fc_finalize_unsolvable_tree fuel t t.finalized_head d t',
         fc_finalize_unsolvable_iff fuel t t.finalized_head d⟩

/-- Witness for C7: the S2-shaped tie tree fails with
`UnsolvableFork(root)` and is returned unchanged. -/
theorem C7_finalize_unsolvable_characterization_witness :
    finalize_block_frame 5 tiedTree = .unsolvable 17 tiedTree :=
  (C7_finalize_unsolvable_characterization 5 tiedTree 17 tiedTree).2.mpr (by decide)

/-- Reflexivity of the score-only relation. -/
theorem fc_onlyScores_refl (t : ForkChoiceTree) : OnlyScoresDiffer t t := by
  refine ⟨rfl, rfl, fun k => ?_⟩
  cases h : assocGet t.nodes k with
  | none => exact Or.inl ⟨rfl, rfl⟩
  | some n => exact Or.inr ⟨n, n, rfl, rfl, rfl, rfl, rfl, rfl, rfl⟩

/-- Transitivity of the score-only relation. -/
theorem fc_onlyScores_trans (t1 t2 t3 : ForkChoiceTree)
    (h12 : OnlyScoresDiffer t1 t2) (h23 : OnlyScoresDiffer t2 t3) :
    OnlyScoresDiffer t1 t3 := by
  obtain ⟨hf12, hh12, hn12⟩ := h12
  obtain ⟨hf23, hh23, hn23⟩ := h23
  refine ⟨hf23.trans hf12, hh23.trans hh12, fun k => ?_⟩
  rcases hn12 k with ⟨ha, hb⟩ | ⟨n, n', ha, hb, hs⟩
  · rcases hn23 k with ⟨hc, hd⟩ | ⟨m, m', hc, hd, ht⟩
    · exact Or.inl ⟨ha, hd⟩
    · rw [hb] at hc; cases hc
  · rcases hn23 k with ⟨hc, hd⟩ | ⟨m, m', hc, hd, ht⟩
    · rw [hb] at hc; cases hc
    · rw [hb] at hc
      injection hc with hc
      subst hc
      refine Or.inr ⟨n, m', ha, hd, ?_⟩
      obtain ⟨u1, u2, u3, u4, u5⟩ := hs
      obtain ⟨v1, v2, v3, v4, v5⟩ := ht
      exact ⟨v1.trans u1, v2.trans u2, v3.trans u3, v4.trans u4, v5.trans u5⟩

/-- A successful score walk changes nothing but scores: frontier fields
and every node's frame, height, parent, hash, and children survive. -/
theorem fc_increment_only_scores :
    ∀ (fuel : Nat) (t : ForkChoiceTree) (h : ForkChoice.Digest) (t' : ForkChoiceTree),
      incrementLoop fuel t h = .ok t' → OnlyScoresDiffer t t' := by
  intro fuel
  induction fuel with
  | zero => intro t h t' hh; simp [incrementLoop] at hh
  | succ fuel ih =>
    intro t h t' hh
    rw [incrementLoop] at hh
    cases hg : assocGet t.nodes h with
    | none => simp [hg] at hh
    | some node =>
      simp only [hg] at hh
      by_cases hf : node.block_frame = t.finalized_frame
      · rw [if_pos hf] at hh
        cases hh
        exact fc_onlyScores_refl t
      · rw [if_neg hf] at hh
        refine fc_onlyScores_trans _ _ _ ?_ (ih _ _ _ hh)
        refine ⟨rfl, rfl, fun k => ?_⟩
        rw [assoc_get_put]
        by_cases hk : h = k
        · subst hk
          rw [if_pos rfl]
          exact Or.inr ⟨node, _, hg, rfl, rfl, rfl, rfl, rfl, rfl⟩
        · rw [if_neg hk]
          cases hgk : assocGet t.nodes k with
          | none => exact Or.inl ⟨rfl, rfl⟩
          | some n => exact Or.inr ⟨n, n, rfl, rfl, rfl, rfl, rfl, rfl, rfl⟩

/-- Amended claim C10.  If the proposed hash is already in the node map,
`propose_block` never returns `InvalidParent` or `InvalidHeight` — it
skips the parent and height checks entirely — and whenever it returns
successfully it has performed a pure score increment: finalized frame and
head are untouched and every node keeps its frame, height, parent, hash,
and children.  (The unamended claim is false: the score walk can panic
instead of completing, see the counterexample.) -/
theorem C10_duplicate_propose_amended :
    ∀ (fuel : Nat) (t : ForkChoiceTree) (height : Nat) (parent hash : ForkChoice.Digest),
      (assocGet t.nodes hash).isSome = true →
      (∀ e t', propose_block fuel t height parent hash ≠ .err e t')
      ∧ (∀ t', propose_block fuel t height parent hash = .ok t' → OnlyScoresDiffer t t') := by
  intro fuel t height parent hash hmem
  unfold propose_block
  rw [if_pos hmem]
  constructor
  · intro e t' hcontra
    revert hcontra
    cases hic : incrementLoop fuel t hash <;> simp
  · intro t' hok
    revert hok
    cases hic : incrementLoop fuel t hash with
    | ok t2 =>
      intro hok
      simp only at hok
      cases hok
      exact fc_increment_only_scores fuel t hash _ hic
    | panic => intro hok; simp at hok
    | noFuel => intro hok; simp at hok

/-- Counterexample for C10 as stated: on a fresh tree the genesis hash is
present, so a duplicate proposal (with nonsense parent and height) indeed
returns neither `InvalidParent` nor `InvalidHeight` — but it does not
perform the score increment either: the walk panics at the root's
zero-digest parent. -/
theorem C10_duplicate_propose_counterexample :
    propose_block 10 (ForkChoiceTree.new 17) 5 99 17 = .panic := by decide

/-- Witness for the amended C10 at a concrete tree and arguments. -/
theorem C10_duplicate_propose_amended_witness :
    propose_block 9 tieTree 7 99 1 ≠ .err (.invalidBlockParentHash 99) tieTree :=
  (C10_duplicate_propose_amended 9 tieTree 7 99 1 (by decide)).1
    (.invalidBlockParentHash 99) tieTree

/-- If `apply_transfer_bread` reports the transaction invalid, the overlay
it returns is exactly the overlay it was given (the only failing check,
the balance check, precedes every staging insert). -/
theorem sw_transfer_invalid_pending (base : Swarm.SKey → Option Swarm.Value)
    (pending : List (Swarm.SKey × Swarm.StateOperation)) (pk : Nat)
    (sender : Swarm.Account) (i : Swarm.TransferBread)
    (h : (Swarm.apply_transfer_bread pending base pk sender i).2 = false) :
    (Swarm.apply_transfer_bread pending base pk sender i).1 = pending := by
  revert h
  unfold Swarm.apply_transfer_bread
  split
  · intro _; rfl
  · intro h; simp at h

/-- If the per-transaction step reports the transaction invalid, the
overlay is unchanged. -/
theorem sw_step_invalid_pending (base : Swarm.SKey → Option Swarm.Value)
    (pending : List (Swarm.SKey × Swarm.StateOperation)) (tx : Swarm.Transaction)
    (h : (Swarm.executeStep base pending tx).2 = false) :
    (Swarm.executeStep base pending tx).1 = pending := by
  revert h
  unfold Swarm.executeStep
  split
  · intro _; rfl
  · split
    · intro h
      exact sw_transfer_invalid_pending _ _ _ _ _ h

/-- The invalid-transaction list produced by `StateLayer::execute` only
ever grows: the output extends the accumulator. -/
theorem sw_execLoop_invalids_mono (base : Swarm.SKey → Option Swarm.Value) :
    ∀ (txs : List Swarm.Transaction) (pending : List (Swarm.SKey × Swarm.StateOperation))
      (processed : List (Nat × Nat)) (invalids : List Swarm.Transaction),
      ∃ l, (Swarm.executeLoop base txs pending processed invalids).invalid_txs = invalids ++ l := by
  intro txs
  induction txs with
  | nil =>
    intro p pr inv
    exact ⟨[], by simp [Swarm.executeLoop]⟩
  | cons tx rest ih =>
    intro p pr inv
    unfold Swarm.executeLoop
    dsimp only
    split
    · exact ih _ _ _
    · obtain ⟨l, hl⟩ := ih (Swarm.executeStep base p tx).1 pr (inv ++ [tx])
      exact ⟨tx :: l, by rw [hl, List.append_assoc]; rfl⟩

/-- Claim C6 (status: confirmed).  A transaction that the swarm executor
marks invalid — absent sender, nonce mismatch, or insufficient balance,
i.e. any run of the per-transaction body whose validity flag is false —
stages nothing: the overlay after the transaction is the overlay before
it, every overlay read is unchanged, and the transaction is reported in
`invalid_txs` of the batch that processes it. -/
theorem C6_invalid_tx_stages_nothing (base : Swarm.SKey → Option Swarm.Value)
    (pending : List (Swarm.SKey × Swarm.StateOperation)) (processed : List (Nat × Nat))
    (invalids : List Swarm.Transaction) (tx : Swarm.Transaction) (rest : List Swarm.Transaction)
    (h : (Swarm.executeStep base pending tx).2 = false) :
    (Swarm.executeStep base pending tx).1 = pending
    ∧ (∀ k, Swarm.layerGet (Swarm.executeStep base pending tx).1 base k
          = Swarm.layerGet pending base k)
    ∧ tx ∈ (Swarm.executeLoop base (tx :: rest) pending processed invalids).invalid_txs := by
  have hpend := sw_step_invalid_pending base pending tx h
  refine ⟨hpend, fun k => by rw [hpend], ?_⟩
  unfold Swarm.executeLoop
  dsimp only
  rw [if_neg (by rw [h]; exact Bool.false_ne_true)]
  obtain ⟨l, hl⟩ :=
    sw_execLoop_invalids_mono base rest (Swarm.executeStep base pending tx).1 processed
      (invalids ++ [tx])
  rw [hl]
  simp

/-- Witness for C6: on an empty committed store every transfer has an
absent sender, the step stages nothing and the batch reports it invalid. -/
theorem C6_invalid_tx_stages_nothing_witness :
    (Swarm.executeStep (fun _ => none) []
        { nonce := 0, instruction := .transferBread { amount := 1, to_pk := 3 },
          public_key := 5, signature := 0 }).1 = []
    ∧ ({ nonce := 0, instruction := .transferBread { amount := 1, to_pk := 3 },
         public_key := 5, signature := 0 } : Swarm.Transaction)
        ∈ (Swarm.executeLoop (fun _ => none)
            [{ nonce := 0, instruction := .transferBread { amount := 1, to_pk := 3 },
               public_key := 5, signature := 0 }] [] [] []).invalid_txs :=
  ⟨(C6_invalid_tx_stages_nothing (fun _ => none) [] [] []
      { nonce := 0, instruction := .transferBread { amount := 1, to_pk := 3 },
        public_key := 5, signature := 0 } [] (by decide)).1,
   (C6_invalid_tx_stages_nothing (fun _ => none) [] [] []
      { nonce := 0, instruction := .transferBread { amount := 1, to_pk := 3 },
        public_key := 5, signature := 0 } [] (by decide)).2.2⟩

/-- Claim C2 (status: confirmed).  For a self-transfer (recipient equals
sender) with the correct nonce and sufficient balance, the receiver
staging overwrites the sender staging on the same overlay key: the
committed post-state account has its balance increased by `amount` while
its nonce is unchanged from the pre-state (the receiver value was read
from the pre-state before the sender insert), yet the transaction is
valid and `processed_nonces` records `nonce + 1`.  The two bound
hypotheses state that neither the balance sum nor the nonce successor
overflows `u64`. -/
theorem C2_self_transfer_overwrite (base : Swarm.SKey → Option Swarm.Value)
    (a : Swarm.Account) (pk amount nonce sig : Nat)
    (hacct : base (Swarm.SKey.account pk) = some (Swarm.Value.account a))
    (hn : a.nonce = nonce) (hamt : amount ≤ a.bread)
    (hbov : a.bread + amount < U64) (hnov : nonce + 1 < U64) :
    Swarm.execute base
      [{ nonce := nonce, instruction := .transferBread { amount := amount, to_pk := pk },
         public_key := pk, signature := sig }] =
      { pending := [(Swarm.SKey.account pk,
            .update (.account { nonce := a.nonce, bread := a.bread + amount }))],
        processed_nonces := [(pk, nonce + 1)],
        invalid_txs := [] }
    ∧ Swarm.committedGet base
        [(Swarm.SKey.account pk,
            .update (.account { nonce := a.nonce, bread := a.bread + amount }))]
        (Swarm.SKey.account pk)
      = some (.account { nonce := a.nonce, bread := a.bread + amount }) := by
  subst hn
  have hnl : ¬ (a.bread < amount) := by omega
  have hmod : (a.bread + amount) % U64 = a.bread + amount := Nat.mod_eq_of_lt hbov
  have hsat : satAdd1 a.nonce = a.nonce + 1 := by
    have : a.nonce + 1 ≤ U64 - 1 := by unfold U64 at hnov ⊢; omega
    unfold satAdd1
    exact Nat.min_eq_left this
  constructor
  · simp only [Swarm.execute, Swarm.executeLoop, Swarm.executeStep,
      Swarm.prepare_sender_account, Swarm.apply_transfer_bread, Swarm.layerGet,
      assocGet, assocPut, hacct, hnl, hmod, hsat, ne_eq, not_true_eq_false,
      if_false, if_true, ite_false, ite_true]
  · simp [Swarm.committedGet, assocGet]

/-- Concrete committed store used by the C2 witness. -/
theorem C2_self_transfer_overwrite_witness :
    Swarm.execute
      (fun k => if k = Swarm.SKey.account 7
                then some (.account { nonce := 3, bread := 10 }) else none)
      [{ nonce := 3, instruction := .transferBread { amount := 4, to_pk := 7 },
         public_key := 7, signature := 0 }] =
      { pending := [(Swarm.SKey.account 7,
            .update (.account { nonce := 3, bread := 14 }))],
        processed_nonces := [(7, 4)],
        invalid_txs := [] }
    ∧ Swarm.committedGet
        (fun k => if k = Swarm.SKey.account 7
                  then some (.account { nonce := 3, bread := 10 }) else none)
        [(Swarm.SKey.account 7, .update (.account { nonce := 3, bread := 14 }))]
        (Swarm.SKey.account 7)
      = some (.account { nonce := 3, bread := 14 }) :=
  C2_self_transfer_overwrite
    (fun k => if k = Swarm.SKey.account 7
              then some (.account { nonce := 3, bread := 10 }) else none)
    { nonce := 3, bread := 10 } 7 4 3 0 (by decide) rfl (by decide) (by decide) (by decide)

/-- Claim C9 (status: code bug).  The claim (and spec §9) requires both
executors to advance the stored account nonce with saturating `+1`, so at
`u64::MAX` the stored nonce stays `u64::MAX`.  Both sources use a plain
`account.nonce += 1`, which wraps to 0 in release builds (and panics in
debug builds); only the separate `processed_nonces` bookkeeping uses
`saturating_add`. -/
theorem C9_nonce_increment_wraps :
    (Oracle.prepare_sender_account oracleMaxState oracleMaxTx).1 = some { nonce := 0 }
    ∧ assocGet (Oracle.prepare_sender_account oracleMaxState oracleMaxTx).2.builders 5
        = some { nonce := 0 }
    ∧ Swarm.prepare_sender_account [] swarmMaxBase swarmMaxTx
        = some { nonce := 0, bread := 9 }
    ∧ satAdd1 (U64 - 1) = U64 - 1 := by decide

section AssocLemmas

variable {α β : Type} [DecidableEq α]

/-- A successful lookup exhibits a member of the association list. -/
theorem assoc_get_mem {l : List (α × β)} {k : α} {v : β}
    (h : assocGet l k = some v) : (k, v) ∈ l := by
  induction l with
  | nil => cases h
  | cons p rest ih =>
    obtain ⟨a, b⟩ := p
    by_cases hak : a = k
    · subst hak
      rw [assocGet, if_pos rfl] at h
      injection h with h
      subst h
      exact List.mem_cons_self _ _
    · rw [assocGet, if_neg hak] at h
      exact List.mem_cons_of_mem _ (ih h)

/-- A key absent from the key list looks up to nothing. -/
theorem assoc_get_eq_none_of_not_mem {l : List (α × β)} {k : α}
    (h : k ∉ l.map Prod.fst) : assocGet l k = none := by
  induction l with
  | nil => rfl
  | cons p rest ih =>
    obtain ⟨a, b⟩ := p
    simp only [List.map_cons, List.mem_cons] at h
    push_neg at h
    rw [assocGet, if_neg (fun hh => h.1 hh.symm)]
    exact ih h.2

/-- Removing one key leaves lookups of other keys unchanged. -/
theorem assoc_get_remove_ne {l : List (α × β)} {k k' : α} (h : k ≠ k') :
    assocGet (assocRemove l k) k' = assocGet l k' := by
  induction l with
  | nil => rfl
  | cons p rest ih =>
    obtain ⟨a, b⟩ := p
    by_cases hak : a = k
    · subst hak
      rw [assocRemove, if_pos rfl, assocGet, if_neg h]
    · rw [assocRemove, if_neg hak, assocGet, assocGet]
      by_cases hak' : a = k'
      · rw [if_pos hak', if_pos hak']
      · rw [if_neg hak', if_neg hak', ih]

/-- Removal yields a sublist. -/
theorem assoc_remove_sublist (l : List (α × β)) (k : α) :
    List.Sublist (assocRemove l k) l := by
  induction l with
  | nil => exact List.Sublist.refl _
  | cons p rest ih =>
    obtain ⟨a, b⟩ := p
    by_cases hak : a = k
    · rw [assocRemove, if_pos hak]
      exact List.sublist_cons_self _ _
    · rw [assocRemove, if_neg hak]
      exact List.Sublist.cons₂ _ ih

/-- With unique keys, removing a key makes its lookup fail. -/
theorem assoc_get_remove_self {l : List (α × β)} {k : α}
    (h : (l.map Prod.fst).Nodup) : assocGet (assocRemove l k) k = none := by
  induction l with
  | nil => rfl
  | cons p rest ih =>
    obtain ⟨a, b⟩ := p
    simp only [List.map_cons, List.nodup_cons] at h
    by_cases hak : a = k
    · subst hak
      rw [assocRemove, if_pos rfl]
      exact assoc_get_eq_none_of_not_mem h.1
    · rw [assocRemove, if_neg hak, assocGet, if_neg hak]
      exact ih h.2

/-- Replacing the value at an existing key leaves the key list unchanged. -/
theorem assoc_put_keys_of_get {l : List (α × β)} {k : α} {v : β} (w : β)
    (h : assocGet l k = some v) : (assocPut l k w).map Prod.fst = l.map Prod.fst := by
  induction l with
  | nil => cases h
  | cons p rest ih =>
    obtain ⟨a, b⟩ := p
    by_cases hak : a = k
    · subst hak
      rw [assocPut, if_pos rfl]
      simp
    · rw [assocGet, if_neg hak] at h
      rw [assocPut, if_neg hak]
      simp only [List.map_cons]
      rw [ih h]

/-- With unique keys, membership coincides with lookup. -/
theorem assoc_mem_iff_get {l : List (α × β)} {k : α} {v : β}
    (h : (l.map Prod.fst).Nodup) : (k, v) ∈ l ↔ assocGet l k = some v := by
  constructor
  · intro hmem
    induction l with
    | nil => cases hmem
    | cons p rest ih =>
      obtain ⟨a, b⟩ := p
      simp only [List.map_cons, List.nodup_cons] at h
      rcases List.mem_cons.mp hmem with h1 | h2
      · injection h1 with h1a h1b
        subst h1a
        subst h1b
        rw [assocGet, if_pos rfl]
      · have hak : a ≠ k := by
          intro hak
          subst hak
          exact h.1 (List.mem_map.mpr ⟨(a, v), h2, rfl⟩)
        rw [assocGet, if_neg hak]
        exact ih h.2 h2
  · exact assoc_get_mem

end AssocLemmas

namespace Mem

/-- Liveness is the negation of staleness. -/
theorem mp_liveIn_iff (m : Mempool) (pk : Nat) :
    liveIn m pk = true ↔ ¬ staleIn m.tracked pk := by
  unfold liveIn staleIn
  cases h : assocGet m.tracked pk with
  | none => simp
  | some e => cases e <;> simp

/-- What one successful `next` draw looks like: a stale prefix is popped,
the first live originator's smallest nonce is drawn, and the three fields
are updated as in the source. -/
theorem mp_nextLoop_drawn_spec :
    ∀ (q : List Nat) (tracked : List (Nat × List (Nat × Nat))) (txs : List (Nat × MTx))
      (tx : MTx) (m1 : Mempool),
      nextLoop q tracked txs = .drawn tx m1 →
      ∃ s pk rest n d erest,
        q = s ++ pk :: rest
        ∧ (∀ x ∈ s, staleIn tracked x)
        ∧ assocGet tracked pk = some ((n, d) :: erest)
        ∧ assocGet txs d = some tx
        ∧ m1 = { transactions := assocRemove txs d,
                 tracked := if erest.isEmpty then assocRemove tracked pk
                            else assocPut tracked pk erest,
                 queue := if erest.isEmpty then rest else rest ++ [pk] } := by
  intro q
  induction q with
  | nil => intro tracked txs tx m1 h; cases h
  | cons pk0 rest0 ih =>
    intro tracked txs tx m1 h
    rw [nextLoop] at h
    cases hg : assocGet tracked pk0 with
    | none =>
      rw [hg] at h
      obtain ⟨s, pk, rest, n, d, erest, hq, hs, hgg, htx, hm⟩ := ih tracked txs tx m1 h
      refine ⟨pk0 :: s, pk, rest, n, d, erest, by rw [hq]; rfl, ?_, hgg, htx, hm⟩
      intro x hx
      rcases List.mem_cons.mp hx with h1 | h2
      · subst h1; exact Or.inl hg
      · exact hs x h2
    | some entry =>
      rw [hg] at h
      cases entry with
      | nil =>
        obtain ⟨s, pk, rest, n, d, erest, hq, hs, hgg, htx, hm⟩ := ih tracked txs tx m1 h
        refine ⟨pk0 :: s, pk, rest, n, d, erest, by rw [hq]; rfl, ?_, hgg, htx, hm⟩
        intro x hx
        rcases List.mem_cons.mp hx with h1 | h2
        · subst h1; exact Or.inr hg
        · exact hs x h2
      | cons nd erest0 =>
        obtain ⟨n0, d0⟩ := nd
        dsimp only at h
        cases htx0 : assocGet txs d0 with
        | none => rw [htx0] at h; cases h
        | some tx0 =>
          rw [htx0] at h
          cases h
          exact ⟨[], pk0, rest0, n0, d0, erest0, rfl, (by intro x hx; cases hx), hg, htx0, rfl⟩

/-- Wrapper of the draw characterization at the `Mempool::next` level. -/
theorem mp_next_drawn_spec (m : Mempool) (tx : MTx) (m1 : Mempool)
    (h : m.next = .drawn tx m1) :
    ∃ s pk rest n d erest,
      m.queue = s ++ pk :: rest
      ∧ (∀ x ∈ s, staleIn m.tracked x)
      ∧ assocGet m.tracked pk = some ((n, d) :: erest)
      ∧ assocGet m.transactions d = some tx
      ∧ m1 = { transactions := assocRemove m.transactions d,
               tracked := if erest.isEmpty then assocRemove m.tracked pk
                          else assocPut m.tracked pk erest,
               queue := if erest.isEmpty then rest else rest ++ [pk] } :=
  mp_nextLoop_drawn_spec m.queue m.tracked m.transactions tx m1 h

/-- Consistency of a tracked pair is unaffected by removing a different
digest from the pool. -/
theorem mp_txConsistentB_remove_ne (txs : List (Nat × MTx)) (pk n d d2 : Nat)
    (h : d ≠ d2) :
    txConsistentB (assocRemove txs d) pk n d2 = txConsistentB txs pk n d2 := by
  unfold txConsistentB
  rw [assoc_get_remove_ne h]

/-- One draw preserves the structural mempool invariants. -/
theorem mp_next_WF (m : Mempool) (tx : MTx) (m1 : Mempool) (hWF : WF m)
    (h : m.next = .drawn tx m1) : WF m1 := by
  obtain ⟨s, pk, rest, n, d, erest, hq, hs, hgg, htx, hm⟩ := mp_next_drawn_spec m tx m1 h
  have hpkmem : (pk, (n, d) :: erest) ∈ m.tracked := assoc_get_mem hgg
  have hkeys1 : ((if erest.isEmpty then assocRemove m.tracked pk
      else assocPut m.tracked pk erest).map Prod.fst).Nodup := by
    by_cases he : erest.isEmpty
    · rw [if_pos he]
      exact hWF.nodupTracked.sublist ((assoc_remove_sublist m.tracked pk).map Prod.fst)
    · rw [if_neg he, assoc_put_keys_of_get erest hgg]
      exact hWF.nodupTracked
  have hget1 : ∀ x, assocGet (if erest.isEmpty then assocRemove m.tracked pk
      else assocPut m.tracked pk erest) x =
      if pk = x then (if erest.isEmpty then none else some erest)
      else assocGet m.tracked x := by
    intro x
    by_cases he : erest.isEmpty
    · rw [if_pos he, if_pos he]
      by_cases hpx : pk = x
      · subst hpx
        rw [if_pos rfl]
        exact assoc_get_remove_self hWF.nodupTracked
      · rw [if_neg hpx]
        exact assoc_get_remove_ne hpx
    · rw [if_neg he, if_neg he]
      rw [assoc_get_put]
  have hcases : ∀ pe ∈ (if erest.isEmpty then assocRemove m.tracked pk
      else assocPut m.tracked pk erest),
      (pe.1 = pk ∧ pe.2 = erest ∧ erest ≠ []) ∨ (pe.1 ≠ pk ∧ pe ∈ m.tracked) := by
    intro pe hpe
    obtain ⟨p1, p2⟩ := pe
    have hg1 := (assoc_mem_iff_get hkeys1).mp hpe
    rw [hget1] at hg1
    by_cases hpx : pk = p1
    · rw [if_pos hpx] at hg1
      by_cases he : erest.isEmpty
      · rw [if_pos he] at hg1
        cases hg1
      · rw [if_neg he] at hg1
        injection hg1 with hg1
        exact Or.inl ⟨hpx.symm, hg1.symm, by
          intro hnil
          exact he (by rw [hnil]; rfl)⟩
    · rw [if_neg hpx] at hg1
      exact Or.inr ⟨fun hh => hpx hh.symm, assoc_get_mem hg1⟩
  have hsortedPk := hWF.sorted (pk, (n, d) :: erest) hpkmem
  have hNoDup : (n, d) :: erest ≠ [] := by intro hh; cases hh
  have hdnotin : ∀ nd2 ∈ erest, nd2.2 ≠ d := by
    intro nd2 hnd2 hdd
    have huniq := hWF.uniqueRef (pk, (n, d) :: erest) hpkmem nd2
        (List.mem_cons_of_mem _ hnd2) (pk, (n, d) :: erest) hpkmem (n, d)
        (List.mem_cons_self _ _) hdd
    have hpair : nd2 = (n, d) := by
      obtain ⟨q1, q2⟩ := nd2
      simp only at huniq hdd
      rw [huniq.2, hdd]
    rw [hpair] at hnd2
    have hpw := (List.chain'_iff_pairwise.mp hsortedPk)
    simp only [List.map_cons, List.pairwise_cons] at hpw
    have := hpw.1 n (List.mem_map.mpr ⟨(n, d), hnd2, rfl⟩)
    omega
  subst hm
  refine ⟨hkeys1, ?_, ?_, ?_, ?_⟩
  · exact hWF.nodupTx.sublist ((assoc_remove_sublist m.transactions d).map Prod.fst)
  · intro pe hpe
    rcases hcases pe hpe with ⟨h1, h2, h3⟩ | ⟨h1, h2⟩
    · rw [h2]
      have := hsortedPk.tail
      simpa using this
    · exact hWF.sorted pe h2
  · intro pe hpe nd2 hnd2
    have hne : nd2.2 ≠ d := by
      rcases hcases pe hpe with ⟨h1, h2, h3⟩ | ⟨h1, h2⟩
      · exact hdnotin nd2 (h2 ▸ hnd2)
      · intro hdd
        have huniq := hWF.uniqueRef pe h2 nd2 hnd2 (pk, (n, d) :: erest) hpkmem (n, d)
            (List.mem_cons_self _ _) hdd
        exact h1 huniq.1
    rw [mp_txConsistentB_remove_ne m.transactions pe.1 nd2.1 d nd2.2 (fun hh => hne hh.symm)]
    rcases hcases pe hpe with ⟨h1, h2, h3⟩ | ⟨h1, h2⟩
    · have := hWF.consistent (pk, (n, d) :: erest) hpkmem nd2
          (List.mem_cons_of_mem _ (h2 ▸ hnd2))
      rw [h1]
      simpa using this
    · exact hWF.consistent pe h2 nd2 hnd2
  · intro pe hpe nd2 hnd2 pe2 hpe2 nd3 hnd3 hdd
    have hmap : ∀ pe0 ∈ (if erest.isEmpty then assocRemove m.tracked pk
        else assocPut m.tracked pk erest), ∀ nd0 ∈ pe0.2,
        ∃ E, (pe0.1, E) ∈ m.tracked ∧ nd0 ∈ E := by
      intro pe0 hpe0 nd0 hnd0
      rcases hcases pe0 hpe0 with ⟨h1, h2, h3⟩ | ⟨h1, h2⟩
      · exact ⟨(n, d) :: erest, h1 ▸ hpkmem, List.mem_cons_of_mem _ (h2 ▸ hnd0)⟩
      · exact ⟨pe0.2, h2, hnd0⟩
    obtain ⟨E1, hE1, hin1⟩ := hmap pe hpe nd2 hnd2
    obtain ⟨E2, hE2, hin2⟩ := hmap pe2 hpe2 nd3 hnd3
    exact hWF.uniqueRef (pe.1, E1) hE1 nd2 hin1 (pe2.1, E2) hE2 nd3 hin2 hdd

/-- Scanning order is unaffected by a prefix containing neither element. -/
theorem mp_firstOf_append (a b : Nat) (s q : List Nat)
    (ha : a ∉ s) (hb : b ∉ s) : firstOf a b (s ++ q) = firstOf a b q := by
  induction s with
  | nil => rfl
  | cons x srest ih =>
    simp only [List.mem_cons] at ha hb
    push_neg at ha hb
    rw [List.cons_append, firstOf, if_neg (fun hh => ha.1 hh.symm),
      if_neg (fun hh => hb.1 hh.symm)]
    exact ih ha.2 hb.2

/-- Scanning order is unaffected by any suffix once either element occurs. -/
theorem mp_firstOf_extend (a b : Nat) (q t : List Nat)
    (h : a ∈ q ∨ b ∈ q) : firstOf a b (q ++ t) = firstOf a b q := by
  induction q with
  | nil => rcases h with h | h <;> cases h
  | cons x qrest ih =>
    by_cases hxa : x = a
    · rw [List.cons_append, firstOf, if_pos hxa, firstOf, if_pos hxa]
    · by_cases hxb : x = b
      · rw [List.cons_append, firstOf, if_neg hxa, if_pos hxb,
          firstOf, if_neg hxa, if_pos hxb]
      · have h2 : a ∈ qrest ∨ b ∈ qrest := by
          rcases h with h | h
          · rcases List.mem_cons.mp h with h1 | h1
            · exact absurd h1.symm hxa
            · exact Or.inl h1
          · rcases List.mem_cons.mp h with h1 | h1
            · exact absurd h1.symm hxb
            · exact Or.inr h1
        rw [List.cons_append, firstOf, if_neg hxa, if_neg hxb,
          firstOf, if_neg hxa, if_neg hxb]
        exact ih h2

/-- If `a` occurs and `b` does not, `a` scans first. -/
theorem mp_firstOf_true_of (a b : Nat) (q : List Nat)
    (ha : a ∈ q) (hb : b ∉ q) : firstOf a b q = true := by
  induction q with
  | nil => cases ha
  | cons x qrest ih =>
    simp only [List.mem_cons] at ha hb
    push_neg at hb
    by_cases hxa : x = a
    · rw [firstOf, if_pos hxa]
    · rcases ha with h1 | h1
      · exact absurd h1.symm hxa
      · rw [firstOf, if_neg hxa, if_neg (fun hh => hb.1 hh.symm)]
        exact ih h1 hb.2

/-- Two distinct members scan in one order or the other. -/
theorem mp_firstOf_total (a b : Nat) (q : List Nat)
    (ha : a ∈ q) (hb : b ∈ q) : firstOf a b q = true ∨ firstOf b a q = true := by
  induction q with
  | nil => cases ha
  | cons x qrest ih =>
    by_cases hxa : x = a
    · exact Or.inl (by rw [firstOf, if_pos hxa])
    · by_cases hxb : x = b
      · refine Or.inr (by rw [firstOf, if_pos hxb])
      · have ha2 : a ∈ qrest := by
          rcases List.mem_cons.mp ha with h1 | h1
          · exact absurd h1.symm hxa
          · exact h1
        have hb2 : b ∈ qrest := by
          rcases List.mem_cons.mp hb with h1 | h1
          · exact absurd h1.symm hxb
          · exact h1
        rcases ih ha2 hb2 with h | h
        · exact Or.inl (by rw [firstOf, if_neg hxa, if_neg hxb]; exact h)
        · exact Or.inr (by rw [firstOf, if_neg hxb, if_neg hxa]; exact h)

/-- One step of the cons scan for an element matching neither argument. -/
theorem mp_firstOf_cons_ne (a b x : Nat) (q : List Nat)
    (hxa : x ≠ a) (hxb : x ≠ b) : firstOf a b (x :: q) = firstOf a b q := by
  rw [firstOf, if_neg hxa, if_neg hxb]

/-- One draw preserves the two-originator fairness invariant, bumping the
drawn originator's counter. -/
theorem mp_fairInv_step (a b : Nat) (hab : a ≠ b) (m : Mempool) (ca cb : Nat)
    (inv : FairInv a b m ca cb) (tx : MTx) (m1 : Mempool)
    (h : m.next = .drawn tx m1)
    (hliveA : liveIn m1 a = true) (hliveB : liveIn m1 b = true) :
    FairInv a b m1 (if tx.public_key = a then ca + 1 else ca)
      (if tx.public_key = b then cb + 1 else cb) := by
  obtain ⟨s, pk, rest, n, d, erest, hq, hs, hgg, htx, hm⟩ := mp_next_drawn_spec m tx m1 h
  have hWF1 : WF m1 := mp_next_WF m tx m1 inv.wf h
  have htxpk : tx.public_key = pk := by
    have hc := inv.wf.consistent (pk, (n, d) :: erest) (assoc_get_mem hgg) (n, d)
        (List.mem_cons_self _ _)
    unfold txConsistentB at hc
    rw [htx] at hc
    simp only [Bool.and_eq_true, beq_iff_eq] at hc
    exact hc.1
  have hlA : ¬ staleIn m.tracked a := (mp_liveIn_iff m a).mp inv.liveA
  have hlB : ¬ staleIn m.tracked b := (mp_liveIn_iff m b).mp inv.liveB
  have haS : a ∉ s := fun hh => hlA (hs a hh)
  have hbS : b ∉ s := fun hh => hlB (hs b hh)
  have hcountA : m.queue.count a ≤ 1 := inv.countA
  have hcountB : m.queue.count b ≤ 1 := inv.countB
  have hcsA : s.count a = 0 := List.count_eq_zero.mpr haS
  have hcsB : s.count b = 0 := List.count_eq_zero.mpr hbS
  by_cases hpa : pk = a
  · -- the drawn slot is a itself
    subst hpa
    have haR : pk ∉ rest := by
      have : m.queue.count pk = s.count pk + (1 + rest.count pk) := by
        rw [hq, List.count_append, List.count_cons_self]
        omega
      rw [List.count_eq_zero] at hcsA
      have hr : rest.count pk = 0 := by
        rw [this, List.count_eq_zero.mpr hcsA] at hcountA
        omega
      exact List.count_eq_zero.mp hr
    have hbR : b ∈ rest := by
      have hbq := inv.memB
      rw [hq] at hbq
      rcases List.mem_append.mp hbq with h1 | h1
      · exact absurd h1 hbS
      · rcases List.mem_cons.mp h1 with h2 | h2
        · exact absurd h2.symm hab
        · exact h2
    have herest : erest.isEmpty = false := by
      cases he : erest.isEmpty
      · rfl
      · exfalso
        rw [hm] at hliveA
        unfold liveIn at hliveA
        simp only [he, if_true] at hliveA
        rw [assoc_get_remove_self inv.wf.nodupTracked] at hliveA
        simp at hliveA
    have hq1 : m1.queue = rest ++ [pk] := by rw [hm]; simp [herest]
    have hordA : firstOf pk b m.queue = true := by
      rcases inv.order with ⟨ho, _, _⟩ | ⟨ho, _, _⟩
      · exact ho
      · exfalso
        rw [hq, mp_firstOf_append b pk s _ hbS haS, firstOf,
          if_neg hab, if_pos rfl] at ho
        cases ho
    rcases inv.order with ⟨_, hc1, hc2⟩ | ⟨ho, _, _⟩
    · refine ⟨hWF1, hliveA, hliveB, ?_, ?_, ?_, ?_, ?_⟩
      · rw [hq1, List.count_append]
        simp only [List.count_singleton]
        rw [List.count_eq_zero.mpr haR]
        simp
      · rw [hq1, List.count_append]
        have h0 : List.count b [pk] = 0 :=
          List.count_eq_zero.mpr (by
            intro hh
            exact hab (List.mem_singleton.mp hh).symm)
        have h1 : m.queue.count b = rest.count b := by
          rw [hq, List.count_append, hcsB,
            List.count_cons_of_ne (fun hh => hab hh.symm)]
          omega
        omega
      · rw [hq1]
        exact List.mem_append_right _ (List.mem_singleton.mpr rfl)
      · rw [hq1]
        exact List.mem_append_left _ hbR
      · refine Or.inr ⟨?_, ?_, ?_⟩
        · rw [hq1, mp_firstOf_extend b pk rest [pk] (Or.inl hbR)]
          exact mp_firstOf_true_of b pk rest hbR haR
        · rw [htxpk, if_pos rfl, if_neg hab]
          omega
        · rw [htxpk, if_pos rfl, if_neg hab]
          omega
    · exfalso
      rw [hq, mp_firstOf_append b pk s _ hbS haS, firstOf,
        if_neg hab, if_pos rfl] at ho
      cases ho
  · by_cases hpb : pk = b
    · -- the drawn slot is b
      subst hpb
      have hbR : pk ∉ rest := by
        have : m.queue.count pk = s.count pk + (1 + rest.count pk) := by
          rw [hq, List.count_append, List.count_cons_self]
          omega
        rw [List.count_eq_zero] at hcsB
        have hr : rest.count pk = 0 := by
          rw [this, List.count_eq_zero.mpr hcsB] at hcountB
          omega
        exact List.count_eq_zero.mp hr
      have haR : a ∈ rest := by
        have haq := inv.memA
        rw [hq] at haq
        rcases List.mem_append.mp haq with h1 | h1
        · exact absurd h1 haS
        · rcases List.mem_cons.mp h1 with h2 | h2
          · exact absurd h2.symm hpa
          · exact h2
      have herest : erest.isEmpty = false := by
        cases he : erest.isEmpty
        · rfl
        · exfalso
          rw [hm] at hliveB
          unfold liveIn at hliveB
          simp only [he, if_true] at hliveB
          rw [assoc_get_remove_self inv.wf.nodupTracked] at hliveB
          simp at hliveB
      have hq1 : m1.queue = rest ++ [pk] := by rw [hm]; simp [herest]
      have hordB : firstOf pk a m.queue = true := by
        rcases inv.order with ⟨ho, _, _⟩ | ⟨ho, _, _⟩
        · exfalso
          rw [hq, mp_firstOf_append a pk s _ haS hbS, firstOf,
            if_neg hpa, if_pos rfl] at ho
          cases ho
        · exact ho
      rcases inv.order with ⟨ho, _, _⟩ | ⟨_, hc1, hc2⟩
      · exfalso
        rw [hq, mp_firstOf_append a pk s _ haS hbS, firstOf,
          if_neg hpa, if_pos rfl] at ho
        cases ho
      · refine ⟨hWF1, hliveA, hliveB, ?_, ?_, ?_, ?_, ?_⟩
        · rw [hq1, List.count_append]
          have h0 : List.count a [pk] = 0 :=
            List.count_eq_zero.mpr (by
              intro hh
              exact hpa (List.mem_singleton.mp hh).symm)
          have h1 : m.queue.count a = rest.count a := by
            rw [hq, List.count_append, hcsA,
              List.count_cons_of_ne (fun hh => hpa hh.symm)]
            omega
          omega
        · rw [hq1, List.count_append]
          simp only [List.count_singleton]
          rw [List.count_eq_zero.mpr hbR]
          simp
        · rw [hq1]
          exact List.mem_append_left _ haR
        · rw [hq1]
          exact List.mem_append_right _ (List.mem_singleton.mpr rfl)
        · refine Or.inl ⟨?_, ?_, ?_⟩
          · rw [hq1, mp_firstOf_extend a pk rest [pk] (Or.inl haR)]
            exact mp_firstOf_true_of a pk rest haR hbR
          · rw [htxpk, if_neg hpa, if_pos rfl]
            omega
          · rw [htxpk, if_neg hpa, if_pos rfl]
            omega
    · -- the drawn slot is neither a nor b
      have haR : a ∈ rest := by
        have haq := inv.memA
        rw [hq] at haq
        rcases List.mem_append.mp haq with h1 | h1
        · exact absurd h1 haS
        · rcases List.mem_cons.mp h1 with h2 | h2
          · exact absurd h2.symm hpa
          · exact h2
      have hbR : b ∈ rest := by
        have hbq := inv.memB
        rw [hq] at hbq
        rcases List.mem_append.mp hbq with h1 | h1
        · exact absurd h1 hbS
        · rcases List.mem_cons.mp h1 with h2 | h2
          · exact absurd h2.symm hpb
          · exact h2
      have hcA : m.queue.count a = rest.count a := by
        rw [hq, List.count_append, hcsA,
          List.count_cons_of_ne (fun hh => hpa hh.symm)]
        omega
      have hcB : m.queue.count b = rest.count b := by
        rw [hq, List.count_append, hcsB,
          List.count_cons_of_ne (fun hh => hpb hh.symm)]
        omega
      have hq1 : m1.queue = rest ∨ m1.queue = rest ++ [pk] := by
        rw [hm]
        cases he : erest.isEmpty
        · exact Or.inr (by simp)
        · exact Or.inl (by simp)
      have hqcount : ∀ x, x ≠ pk → m1.queue.count x = rest.count x := by
        intro x hx
        rcases hq1 with h1 | h1
        · rw [h1]
        · rw [h1, List.count_append]
          have h0 : List.count x [pk] = 0 :=
            List.count_eq_zero.mpr (by
              intro hh
              exact hx (List.mem_singleton.mp hh))
          omega
      have hqmem : ∀ x, x ∈ rest → x ∈ m1.queue := by
        intro x hx
        rcases hq1 with h1 | h1
        · rw [h1]; exact hx
        · rw [h1]; exact List.mem_append_left _ hx
      have hfo_ab : firstOf a b m1.queue = firstOf a b m.queue := by
        have h1 : firstOf a b m.queue = firstOf a b rest := by
          rw [hq, mp_firstOf_append a b s _ haS hbS,
            mp_firstOf_cons_ne a b pk rest hpa hpb]
        have h2 : firstOf a b m1.queue = firstOf a b rest := by
          rcases hq1 with hh | hh
          · rw [hh]
          · rw [hh, mp_firstOf_extend a b rest [pk] (Or.inl haR)]
        rw [h2, h1]
      have hfo_ba : firstOf b a m1.queue = firstOf b a m.queue := by
        have h1 : firstOf b a m.queue = firstOf b a rest := by
          rw [hq, mp_firstOf_append b a s _ hbS haS,
            mp_firstOf_cons_ne b a pk rest hpb hpa]
        have h2 : firstOf b a m1.queue = firstOf b a rest := by
          rcases hq1 with hh | hh
          · rw [hh]
          · rw [hh, mp_firstOf_extend b a rest [pk] (Or.inl hbR)]
        rw [h2, h1]
      have hnca : (if tx.public_key = a then ca + 1 else ca) = ca := by
        rw [htxpk, if_neg hpa]
      have hncb : (if tx.public_key = b then cb + 1 else cb) = cb := by
        rw [htxpk, if_neg hpb]
      rw [hnca, hncb]
      refine ⟨hWF1, hliveA, hliveB, ?_, ?_, ?_, ?_, ?_⟩
      · rw [hqcount a (fun hh => hpa hh.symm)]
        have := inv.countA
        omega
      · rw [hqcount b (fun hh => hpb hh.symm)]
        have := inv.countB
        omega
      · exact hqmem a haR
      · exact hqmem b hbR
      · rcases inv.order with ⟨ho, h1, h2⟩ | ⟨ho, h1, h2⟩
        · exact Or.inl ⟨by rw [hfo_ab]; exact ho, h1, h2⟩
        · exact Or.inr ⟨by rw [hfo_ba]; exact ho, h1, h2⟩

/-- The draw characterization with the slot identified as the drawn
transaction's originator and the popped key as its nonce (via the
consistency invariant). -/
theorem mp_next_drawn_full (m : Mempool) (tx : MTx) (m1 : Mempool) (hWF : WF m)
    (h : m.next = .drawn tx m1) :
    ∃ s rest n d erest,
      m.queue = s ++ tx.public_key :: rest
      ∧ (∀ y ∈ s, staleIn m.tracked y)
      ∧ assocGet m.tracked tx.public_key = some ((n, d) :: erest)
      ∧ tx.nonce = n
      ∧ assocGet m.transactions d = some tx
      ∧ m1 = { transactions := assocRemove m.transactions d,
               tracked := if erest.isEmpty then assocRemove m.tracked tx.public_key
                          else assocPut m.tracked tx.public_key erest,
               queue := if erest.isEmpty then rest else rest ++ [tx.public_key] } := by
  obtain ⟨s, pk, rest, n, d, erest, hq, hs, hgg, htx, hm⟩ := mp_next_drawn_spec m tx m1 h
  have hc := hWF.consistent (pk, (n, d) :: erest) (assoc_get_mem hgg) (n, d)
      (List.mem_cons_self _ _)
  unfold txConsistentB at hc
  rw [htx] at hc
  simp only [Bool.and_eq_true, beq_iff_eq] at hc
  rw [← hc.1] at hq hgg hm
  exact ⟨s, rest, n, d, erest, hq, hs, hgg, hc.2, htx, hm⟩

/-- After a draw, every nonce still tracked for the drawn originator is
strictly above the drawn nonce. -/
theorem mp_next_tail_gt (m : Mempool) (tx : MTx) (m1 : Mempool) (hWF : WF m)
    (h : m.next = .drawn tx m1) :
    ∀ nd ∈ (assocGet m1.tracked tx.public_key).getD [], tx.nonce < nd.1 := by
  obtain ⟨s, rest, n, d, erest, hq, hs, hgg, hn, htx, hm⟩ := mp_next_drawn_full m tx m1 hWF h
  intro nd hnd
  rw [hm] at hnd
  by_cases he : erest.isEmpty
  · rw [if_pos he] at hnd
    rw [assoc_get_remove_self hWF.nodupTracked] at hnd
    cases hnd
  · rw [if_neg he] at hnd
    rw [assoc_get_put, if_pos rfl] at hnd
    simp only [Option.getD_some] at hnd
    have hsorted := hWF.sorted (tx.public_key, (n, d) :: erest) (assoc_get_mem hgg)
    have hpw := List.chain'_iff_pairwise.mp hsorted
    simp only [List.map_cons, List.pairwise_cons] at hpw
    have := hpw.1 nd.1 (List.mem_map.mpr ⟨nd, hnd, rfl⟩)
    omega

/-- A draw leaves the tracked entry of every other originator unchanged. -/
theorem mp_next_other_tracked (m : Mempool) (tx : MTx) (m1 : Mempool) (hWF : WF m)
    (h : m.next = .drawn tx m1) (x : Nat) (hx : x ≠ tx.public_key) :
    assocGet m1.tracked x = assocGet m.tracked x := by
  obtain ⟨s, rest, n, d, erest, hq, hs, hgg, hn, htx, hm⟩ := mp_next_drawn_full m tx m1 hWF h
  rw [hm]
  by_cases he : erest.isEmpty
  · rw [if_pos he]
    exact assoc_get_remove_ne (fun hh => hx hh.symm)
  · rw [if_neg he]
    rw [assoc_get_put, if_neg (fun hh => hx hh.symm)]

/-- The drawn nonce is one of the nonces tracked for its originator. -/
theorem mp_next_head_mem (m : Mempool) (tx : MTx) (m1 : Mempool) (hWF : WF m)
    (h : m.next = .drawn tx m1) :
    ∃ d, (tx.nonce, d) ∈ (assocGet m.tracked tx.public_key).getD [] := by
  obtain ⟨s, rest, n, d, erest, hq, hs, hgg, hn, htx, hm⟩ := mp_next_drawn_full m tx m1 hWF h
  rw [hgg, hn]
  exact ⟨d, List.mem_cons_self _ _⟩

/-- Within a draw-only window the counters of two continuously live,
single-slot originators track each other to within one. -/
theorem mp_fair_run :
    ∀ (k : Nat) (m : Mempool) (tr : List (MTx × Mempool)) (a b : Nat) (ca cb : Nat),
      a ≠ b →
      FairInv a b m ca cb →
      drawTrace k m = some tr →
      (∀ p ∈ tr, liveIn p.2 a = true ∧ liveIn p.2 b = true) →
      ((tr.map (fun p => p.1.public_key)).count a + ca
          ≤ (tr.map (fun p => p.1.public_key)).count b + cb + 1)
      ∧ ((tr.map (fun p => p.1.public_key)).count b + cb
          ≤ (tr.map (fun p => p.1.public_key)).count a + ca + 1) := by
  intro k
  induction k with
  | zero =>
    intro m tr a b ca cb hab inv hrun hlive
    rw [drawTrace] at hrun
    injection hrun with hrun
    subst hrun
    simp only [List.map_nil, List.count_nil]
    rcases inv.order with ⟨_, h1, h2⟩ | ⟨_, h1, h2⟩ <;> omega
  | succ k ih =>
    intro m tr a b ca cb hab inv hrun hlive
    rw [drawTrace] at hrun
    cases hnx : m.next with
    | empty m2 => rw [hnx] at hrun; exact absurd hrun (by simp)
    | panic => rw [hnx] at hrun; exact absurd hrun (by simp)
    | drawn tx m1 =>
      rw [hnx] at hrun
      dsimp only at hrun
      cases htr : drawTrace k m1 with
      | none => rw [htr] at hrun; cases hrun
      | some tr1 =>
        rw [htr] at hrun
        simp only [Option.map_some'] at hrun
        injection hrun with hrun
        subst hrun
        have hlive1 := hlive (tx, m1) (List.mem_cons_self _ _)
        have inv1 := mp_fairInv_step a b hab m ca cb inv tx m1 hnx hlive1.1 hlive1.2
        have hres := ih m1 tr1 a b _ _ hab inv1 htr
            (fun p hp => hlive p (List.mem_cons_of_mem _ hp))
        have hca : (List.map (fun p : MTx × Mempool => p.1.public_key)
              ((tx, m1) :: tr1)).count a + ca
            = (List.map (fun p : MTx × Mempool => p.1.public_key) tr1).count a
              + (if tx.public_key = a then ca + 1 else ca) := by
          simp only [List.map_cons]
          by_cases hta : tx.public_key = a
          · rw [if_pos hta, hta, List.count_cons_self]
            omega
          · rw [if_neg hta, List.count_cons_of_ne (fun hh => hta hh.symm)]
        have hcb : (List.map (fun p : MTx × Mempool => p.1.public_key)
              ((tx, m1) :: tr1)).count b + cb
            = (List.map (fun p : MTx × Mempool => p.1.public_key) tr1).count b
              + (if tx.public_key = b then cb + 1 else cb) := by
          simp only [List.map_cons]
          by_cases htb : tx.public_key = b
          · rw [if_pos htb, htb, List.count_cons_self]
            omega
          · rw [if_neg htb, List.count_cons_of_ne (fun hh => htb hh.symm)]
        constructor
        · rw [hca, hcb]
          exact hres.1
        · rw [hca, hcb]
          exact hres.2

/-- Draw-only windows yield each originator's nonces in strictly
increasing order, above any bound dominated by its current backlog. -/
theorem mp_asc_aux :
    ∀ (k : Nat) (m : Mempool) (tr : List (MTx × Mempool)) (x lastN : Nat),
      WF m →
      drawTrace k m = some tr →
      (∀ nd ∈ (assocGet m.tracked x).getD [], lastN < nd.1) →
      List.Chain' (· < ·)
        (lastN :: ((tr.map (fun p : MTx × Mempool => p.1)).filter
          (fun t => t.public_key == x)).map (fun t => t.nonce)) := by
  intro k
  induction k with
  | zero =>
    intro m tr x lastN hWF hrun hgt
    rw [drawTrace] at hrun
    injection hrun with hrun
    subst hrun
    simp
  | succ k ih =>
    intro m tr x lastN hWF hrun hgt
    rw [drawTrace] at hrun
    cases hnx : m.next with
    | empty m2 => rw [hnx] at hrun; exact absurd hrun (by simp)
    | panic => rw [hnx] at hrun; exact absurd hrun (by simp)
    | drawn tx m1 =>
      rw [hnx] at hrun
      dsimp only at hrun
      cases htr : drawTrace k m1 with
      | none => rw [htr] at hrun; cases hrun
      | some tr1 =>
        rw [htr] at hrun
        simp only [Option.map_some'] at hrun
        injection hrun with hrun
        subst hrun
        have hWF1 := mp_next_WF m tx m1 hWF hnx
        by_cases hx : tx.public_key = x
        · have hbeq : (tx.public_key == x) = true := by simp [hx]
          simp only [List.map_cons, List.filter_cons, hbeq, if_true]
          rw [List.chain'_cons]
          obtain ⟨d, hd⟩ := mp_next_head_mem m tx m1 hWF hnx
          rw [hx] at hd
          constructor
          · exact hgt (tx.nonce, d) hd
          · have hgt1 : ∀ nd ∈ (assocGet m1.tracked x).getD [], tx.nonce < nd.1 := by
              rw [← hx]
              exact mp_next_tail_gt m tx m1 hWF hnx
            exact ih m1 tr1 x tx.nonce hWF1 htr hgt1
        · have hbeq : (tx.public_key == x) = false := by simp [hx]
          simp only [List.map_cons, List.filter_cons, hbeq, if_false]
          have hgt1 : ∀ nd ∈ (assocGet m1.tracked x).getD [], lastN < nd.1 := by
            rw [mp_next_other_tracked m tx m1 hWF hnx x (fun hh => hx hh.symm)]
            exact hgt
          exact ih m1 tr1 x lastN hWF1 htr hgt1

/-- Draw-only windows yield each originator's transactions in strictly
ascending nonce order. -/
theorem mp_asc :
    ∀ (k : Nat) (m : Mempool) (tr : List (MTx × Mempool)) (x : Nat),
      WF m →
      drawTrace k m = some tr →
      List.Chain' (· < ·)
        (((tr.map (fun p : MTx × Mempool => p.1)).filter
          (fun t => t.public_key == x)).map (fun t => t.nonce)) := by
  intro k
  induction k with
  | zero =>
    intro m tr x hWF hrun
    rw [drawTrace] at hrun
    injection hrun with hrun
    subst hrun
    simp
  | succ k ih =>
    intro m tr x hWF hrun
    rw [drawTrace] at hrun
    cases hnx : m.next with
    | empty m2 => rw [hnx] at hrun; exact absurd hrun (by simp)
    | panic => rw [hnx] at hrun; exact absurd hrun (by simp)
    | drawn tx m1 =>
      rw [hnx] at hrun
      dsimp only at hrun
      cases htr : drawTrace k m1 with
      | none => rw [htr] at hrun; cases hrun
      | some tr1 =>
        rw [htr] at hrun
        simp only [Option.map_some'] at hrun
        injection hrun with hrun
        subst hrun
        have hWF1 := mp_next_WF m tx m1 hWF hnx
        by_cases hx : tx.public_key = x
        · have hbeq : (tx.public_key == x) = true := by simp [hx]
          simp only [List.map_cons, List.filter_cons, hbeq, if_true]
          have hgt1 : ∀ nd ∈ (assocGet m1.tracked x).getD [], tx.nonce < nd.1 := by
            rw [← hx]
            exact mp_next_tail_gt m tx m1 hWF hnx
          exact mp_asc_aux k m1 tr1 x tx.nonce hWF1 htr hgt1
        · have hbeq : (tx.public_key == x) = false := by simp [hx]
          simp only [List.map_cons, List.filter_cons, hbeq, if_false]
          exact ih m1 tr1 x hWF1 htr

end Mem

/-- Amended claim C8.  In any contiguous window of `Next` draws (no
interleaved `Add`/`Retain`), from a structurally well-formed mempool state
in which the two originators of interest each occupy exactly one queue
slot (the unamended claim fails because a `Retain` that empties an
originator later re-`Add`ed duplicates its slot, see the counterexample):
two originators whose tracked backlogs are non-empty throughout the
window are drawn numbers of times differing by at most one, and every
originator's transactions are drawn in strictly ascending nonce order. -/
theorem C8_round_robin_amended (a b : Nat) (m : Mem.Mempool) (k : Nat)
    (tr : List (Mem.MTx × Mem.Mempool))
    (hab : a ≠ b) (hWF : Mem.WF m)
    (hqa : m.queue.count a ≤ 1) (hqb : m.queue.count b ≤ 1)
    (hma : a ∈ m.queue) (hmb : b ∈ m.queue)
    (hla : Mem.liveIn m a = true) (hlb : Mem.liveIn m b = true)
    (hrun : Mem.drawTrace k m = some tr)
    (hlive : ∀ p ∈ tr, Mem.liveIn p.2 a = true ∧ Mem.liveIn p.2 b = true) :
    ((tr.map (fun p : Mem.MTx × Mem.Mempool => p.1.public_key)).count a
        ≤ (tr.map (fun p : Mem.MTx × Mem.Mempool => p.1.public_key)).count b + 1
      ∧ (tr.map (fun p : Mem.MTx × Mem.Mempool => p.1.public_key)).count b
        ≤ (tr.map (fun p : Mem.MTx × Mem.Mempool => p.1.public_key)).count a + 1)
    ∧ ∀ x, List.Chain' (· < ·)
        (((tr.map (fun p : Mem.MTx × Mem.Mempool => p.1)).filter
          (fun t => t.public_key == x)).map (fun t => t.nonce)) := by
  have horder : (Mem.firstOf a b m.queue = true ∧ 0 ≤ 0 ∧ (0 : Nat) ≤ 0 + 1) ∨
      (Mem.firstOf b a m.queue = true ∧ 0 ≤ 0 ∧ (0 : Nat) ≤ 0 + 1) := by
    rcases Mem.mp_firstOf_total a b m.queue hma hmb with h | h
    · exact Or.inl ⟨h, Nat.le_refl _, Nat.le_succ _⟩
    · exact Or.inr ⟨h, Nat.le_refl _, Nat.le_succ _⟩
  have inv : Mem.FairInv a b m 0 0 :=
    ⟨hWF, hla, hlb, hqa, hqb, hma, hmb, horder⟩
  have hfair := Mem.mp_fair_run k m tr a b 0 0 hab inv hrun hlive
  refine ⟨⟨by omega, by omega⟩, fun x => Mem.mp_asc k m tr x hWF hrun⟩

/-- Witness for the amended C8 on a concrete two-originator mempool:
two draws alternate between the originators, so the counts differ by at
most one. -/
theorem C8_round_robin_amended_witness :
    (((Mem.drawTrace 2 Mem.mWit).getD []).map
        (fun p : Mem.MTx × Mem.Mempool => p.1.public_key)).count 1
      ≤ (((Mem.drawTrace 2 Mem.mWit).getD []).map
        (fun p : Mem.MTx × Mem.Mempool => p.1.public_key)).count 2 + 1
    ∧ (((Mem.drawTrace 2 Mem.mWit).getD []).map
        (fun p : Mem.MTx × Mem.Mempool => p.1.public_key)).count 2
      ≤ (((Mem.drawTrace 2 Mem.mWit).getD []).map
        (fun p : Mem.MTx × Mem.Mempool => p.1.public_key)).count 1 + 1 :=
  (C8_round_robin_amended 1 2 Mem.mWit 2 ((Mem.drawTrace 2 Mem.mWit).getD [])
    (by decide)
    ⟨by decide, by decide,
     (by
       intro pe hpe
       rcases List.mem_cons.mp hpe with h | hpe2
       · subst h
         simp [List.chain'_cons]
       · rcases List.mem_cons.mp hpe2 with h | h3
         · subst h
           simp [List.chain'_cons]
         · cases h3),
     by decide, by decide⟩
    (by decide) (by decide) (by decide) (by decide) (by decide) (by decide)
    (by rfl) (by decide)).1

end FCN
